import Mathlib

/-!
Verification of the Artifact version-control core (bennyschmidt/artifact).

The development shallowly embeds the JavaScript reference implementation:
file contents are `List Char` (JS strings indexed by code units), file paths,
branch names and commit hashes are `String`, JS objects holding changes or
file states are association lists in insertion order, and the on-disk
repository layout (`.art/`) is a record `Repo`.  Fallible operations return
an `Outcome` carrying both the resulting disk state and the thrown error, if
any, so that partially-applied mutations made before a throw stay visible.
-/

namespace Artifact

/-- An edit operation as produced by the delta engine inside `add`
(`src/workflow/index.js`).  A delete records the removed slice as `content`
(the replay engine ignores it); positions are character offsets. -/
inductive Op where
  | insert (position : Nat) (content : List Char)
  | delete (position : Nat) (length : Nat) (content : List Char)
deriving Repr, DecidableEq

/-- The longest-common-prefix loop of `add`:
`while (start < previous.length && start < current.length &&
previous[start] === current[start]) start++;`. -/
def commonPrefixLen : List Char → List Char → Nat
  | a :: as, b :: bs => if a = b then commonPrefixLen as bs + 1 else 0
  | _, _ => 0

/-- The common-suffix scan of `add`:
`while (oldEnd >= start && newEnd >= start && previous[oldEnd] === current[newEnd])
{ oldEnd--; newEnd--; }`.
The two counters are tracked as `i = oldEnd + 1` and `j = newEnd + 1` so they
stay in `Nat` (the JS counters can end at `start - 1`, in particular `-1`).
When `i = 0` the JS guard `oldEnd >= start` is false, so the loop stops,
which is what the first equation returns. -/
def suffixScan (p q : List Char) (start : Nat) : Nat → Nat → Nat × Nat
  | 0, j => (0, j)
  | i + 1, j =>
    if start < i + 1 ∧ start < j ∧ p[i]? = q[j - 1]? then
      suffixScan p q start i (j - 1)
    else
      (i + 1, j)

/-- The delta engine of `add` (`src/workflow/index.js`): emit a delete of the
differing middle of `previous` followed by an insert of the differing middle
of `current`.  JS `s.slice(a, b)` for `0 ≤ a, b` is `(s.take b).drop a`.
The JS `deletionLength = oldEnd - start + 1` can be negative, in which case
no delete is pushed; natural subtraction `scanned.1 - start` is then `0`,
which takes the same branch. -/
def computeOps (previousContent currentContent : List Char) : List Op :=
  let start := commonPrefixLen previousContent currentContent
  let scanned :=
    suffixScan previousContent currentContent start
      previousContent.length currentContent.length
  let deletionLength := scanned.1 - start
  let operations :=
    if 0 < deletionLength then
      [Op.delete start deletionLength ((previousContent.take scanned.1).drop start)]
    else []
  let insertionContent := (currentContent.take scanned.2).drop start
  if 0 < insertionContent.length then
    operations ++ [Op.insert start insertionContent]
  else operations

/-- One replay step of `getStateByHash` (`src/utils/getStateByHash.js`):
an insert splices `op.content` in at `op.position`, a delete removes
`op.length` characters starting at `op.position`. -/
def applyOp (content : List Char) : Op → List Char
  | Op.insert position insContent =>
      content.take position ++ insContent ++ content.drop position
  | Op.delete position length _ =>
      content.take position ++ content.drop (position + length)

/-- Replay of a whole op list, in list order, as in `getStateByHash`. -/
def applyOps (content : List Char) (operations : List Op) : List Char :=
  operations.foldl applyOp content

/-! ### The on-disk repository model

JS objects keyed by strings are embedded as association lists in insertion
order.  `lookupA` is property access, `setA` is property assignment (an
existing key keeps its position, a new key is appended — JS object key
order), `eraseA` is the `delete` operator. -/

/-- JS property access `obj[key]` (`undefined` is `none`). -/
def lookupA {α : Type} : List (String × α) → String → Option α
  | [], _ => none
  | (k, v) :: rest, key => if k = key then some v else lookupA rest key

/-- JS property assignment `obj[key] = v`. -/
def setA {α : Type} : List (String × α) → String → α → List (String × α)
  | [], key, v => [(key, v)]
  | (k, w) :: rest, key, v =>
    if k = key then (key, v) :: rest else (k, w) :: setA rest key v

/-- JS `delete obj[key]` (keys are unique in a JS object, so removing every
binding of the key is the same operation). -/
def eraseA {α : Type} (m : List (String × α)) (key : String) : List (String × α) :=
  m.filter (fun e => e.1 != key)

/-- A change entry attached to a path in a commit or stage: the on-disk JSON
is either a bare array of ops (`Array.isArray(changeSet)` in the replay) or
an object with a `type` of `createFile` / `deleteFile`. -/
inductive Change where
  | createFile (content : List Char)
  | deleteFile
  | ops (operations : List Op)
deriving Repr, DecidableEq

/-- A commit master file `<hash>.json`.  The modern writers always store a
`parts` array, so the legacy `commitMaster.changes` fallback of
`getStateByHash` is never taken and is not modeled. -/
structure CommitObj where
  message : String
  timestamp : Nat
  parent : Option String
  parts : List String
deriving Repr, DecidableEq

/-- One branch history directory `history/local/<branch>/` (or its remote
mirror): the manifest's `commits` list plus the master and part files that
exist on disk, keyed by file name. -/
structure BranchDir where
  commits : List String
  masters : List (String × CommitObj)
  partFiles : List (String × List (String × Change))
deriving Repr, DecidableEq

/-- The `active` record of `art.json`. -/
structure HeadState where
  branch : String
  parent : Option String
deriving Repr, DecidableEq

/-- The whole `.art` store plus the working tree.  `root` is `none` when
`root/manifest.json` is missing; `stage` is `none` when the `stage/`
directory is absent, and otherwise holds the merged change set of its parts.
The working tree holds every non-directory file outside `.art` (the
tree walks in the source filter those out). -/
structure Repo where
  head : HeadState
  root : Option (List (List (String × List Char)))
  branches : List (String × BranchDir)
  remoteBranches : List (String × BranchDir)
  stage : Option (List (String × Change))
  worktree : List (String × List Char)
deriving Repr, DecidableEq

/-- Result of a fallible operation: the disk state when the call returned
or threw, plus the JS return value / thrown error message.  Mutations made
before a throw stay visible in `repo`. -/
structure Outcome where
  repo : Repo
  result : Except String String
deriving Repr

/-- Applying one change entry to a state map, as in the replay loop of
`getStateByHash`: ops act on the current content (empty when absent). -/
def applyChange (state : List (String × List Char)) (filePath : String) :
    Change → List (String × List Char)
  | Change.createFile content => setA state filePath content
  | Change.deleteFile => eraseA state filePath
  | Change.ops operations =>
    setA state filePath (applyOps ((lookupA state filePath).getD []) operations)

def applyChanges (state : List (String × List Char))
    (changes : List (String × Change)) : List (String × List Char) :=
  changes.foldl (fun st e => applyChange st e.1 e.2) state

/-- Merging a commit's referenced part files into `fullChanges`
(`Object.assign` over the parts listed in the master; missing part files are
skipped). -/
def commitFullChanges (dir : BranchDir) (master : CommitObj) :
    List (String × Change) :=
  master.parts.foldl (fun acc partName =>
    match lookupA dir.partFiles partName with
    | none => acc
    | some changes => changes.foldl (fun a e => setA a e.1 e.2) acc) []

/-- The replay loop of `getStateByHash`: missing commit masters are skipped
with `continue` (which also skips the `break` test), and the loop breaks
after applying the commit whose hash equals the target. -/
def replayCommits (dir : BranchDir) (target : String) :
    List String → List (String × List Char) → List (String × List Char)
  | [], state => state
  | hash :: rest, state =>
    match lookupA dir.masters hash with
    | none => replayCommits dir target rest state
    | some master =>
      let state' := applyChanges state (commitFullChanges dir master)
      if hash = target then state' else replayCommits dir target rest state'

/-- The same loop with the `break` removed: replay of the entire chain. -/
def replayAllCommits (dir : BranchDir) :
    List String → List (String × List Char) → List (String × List Char)
  | [], state => state
  | hash :: rest, state =>
    match lookupA dir.masters hash with
    | none => replayAllCommits dir rest state
    | some master =>
      replayAllCommits dir rest (applyChanges state (commitFullChanges dir master))

/-- Assembling the root snapshot from the root manifest's parts. -/
def rootState (parts : List (List (String × List Char))) :
    List (String × List Char) :=
  parts.foldl (fun st part => part.foldl (fun s f => setA s f.1 f.2) st) []

/-- `getStateByHash(branchName, targetHash)` from
`src/utils/getStateByHash.js`: missing root manifest or missing branch
manifest yield an empty map; a null target returns the root state without
replaying. -/
def getStateByHash (r : Repo) (branchName : String) (targetHash : Option String) :
    List (String × List Char) :=
  match r.root with
  | none => []
  | some rootParts =>
    match lookupA r.branches branchName with
    | none => []
    | some dir =>
      match targetHash with
      | none => rootState rootParts
      | some target => replayCommits dir target dir.commits (rootState rootParts)

/-- Replay of the entire commit chain of a branch (the branch-tip state):
`getStateByHash` with the `break` never firing. -/
def branchFullReplay (r : Repo) (branchName : String) : List (String × List Char) :=
  match r.root with
  | none => []
  | some rootParts =>
    match lookupA r.branches branchName with
    | none => []
    | some dir => replayAllCommits dir dir.commits (rootState rootParts)

/-- The commit list of a branch manifest, `[]` when the branch directory or
manifest is missing. -/
def commitsOf (r : Repo) (branchName : String) : List String :=
  match lookupA r.branches branchName with
  | none => []
  | some dir => dir.commits

/-- Invariant: `head.active.parent` is either null or present in
`local/<head.active.branch>/manifest.commits`. -/
def headInvariant (r : Repo) : Bool :=
  match r.head.parent with
  | none => true
  | some h => decide (h ∈ commitsOf r r.head.branch)

/-! ### JSON serialization (sizes only matter to the part-splitting logic) -/

def MAX_PART_SIZE : Nat := 32000000

def hexDigit (n : Nat) : Char :=
  if n < 10 then Char.ofNat ('0'.toNat + n) else Char.ofNat ('a'.toNat + (n - 10))

/-- `JSON.stringify` escaping of one character inside a string literal. -/
def jsonEscapeChar (c : Char) : List Char :=
  if c = '"' then ['\\', '"']
  else if c = '\\' then ['\\', '\\']
  else if c = '\x08' then ['\\', 'b']
  else if c = '\x0c' then ['\\', 'f']
  else if c = '\n' then ['\\', 'n']
  else if c = '\r' then ['\\', 'r']
  else if c = '\t' then ['\\', 't']
  else if c.toNat < 0x20 then
    ['\\', 'u', '0', '0', hexDigit (c.toNat / 16), hexDigit (c.toNat % 16)]
  else [c]

def jsonQuote (s : List Char) : List Char :=
  '"' :: (s.map jsonEscapeChar).flatten ++ ['"']

def jsonNat (n : Nat) : List Char := (Nat.repr n).data

/-- Compact `JSON.stringify` of one op object, key order as constructed in
`add`. -/
def jsonOp : Op → List Char
  | Op.delete position length content =>
    "\x7b\"type\":\"delete\",\"position\":".data ++ jsonNat position ++
    ",\"length\":".data ++ jsonNat length ++
    ",\"content\":".data ++ jsonQuote content ++ "\x7d".data
  | Op.insert position content =>
    "\x7b\"type\":\"insert\",\"position\":".data ++ jsonNat position ++
    ",\"content\":".data ++ jsonQuote content ++ "\x7d".data

/-- Compact `JSON.stringify(changeSet)` — the quantity the splitters sum. -/
def jsonChange : Change → List Char
  | Change.createFile content =>
    "\x7b\"type\":\"createFile\",\"content\":".data ++ jsonQuote content ++ "\x7d".data
  | Change.deleteFile => "\x7b\"type\":\"deleteFile\"\x7d".data
  | Change.ops operations =>
    "[".data ++ List.intercalate ",".data (operations.map jsonOp) ++ "]".data

def changeJsonSize (c : Change) : Nat := (jsonChange c).length

def indentN (depth : Nat) : List Char := List.replicate (2 * depth) ' '

/-- Pretty printing of one op at nesting `depth`, as
`JSON.stringify(_, null, 2)` renders it. -/
def prettyOp (depth : Nat) : Op → List Char
  | Op.delete position length content =>
    "\x7b\n".data ++ indentN (depth + 1) ++ "\"type\": \"delete\",\n".data ++
    indentN (depth + 1) ++ "\"position\": ".data ++ jsonNat position ++ ",\n".data ++
    indentN (depth + 1) ++ "\"length\": ".data ++ jsonNat length ++ ",\n".data ++
    indentN (depth + 1) ++ "\"content\": ".data ++ jsonQuote content ++ "\n".data ++
    indentN depth ++ "\x7d".data
  | Op.insert position content =>
    "\x7b\n".data ++ indentN (depth + 1) ++ "\"type\": \"insert\",\n".data ++
    indentN (depth + 1) ++ "\"position\": ".data ++ jsonNat position ++ ",\n".data ++
    indentN (depth + 1) ++ "\"content\": ".data ++ jsonQuote content ++ "\n".data ++
    indentN depth ++ "\x7d".data

/-- Pretty printing of one change value at nesting `depth`. -/
def prettyChange (depth : Nat) : Change → List Char
  | Change.createFile content =>
    "\x7b\n".data ++ indentN (depth + 1) ++ "\"type\": \"createFile\",\n".data ++
    indentN (depth + 1) ++ "\"content\": ".data ++ jsonQuote content ++ "\n".data ++
    indentN depth ++ "\x7d".data
  | Change.deleteFile =>
    "\x7b\n".data ++ indentN (depth + 1) ++ "\"type\": \"deleteFile\"\n".data ++
    indentN depth ++ "\x7d".data
  | Change.ops [] => "[]".data
  | Change.ops operations =>
    "[\n".data ++
    List.intercalate ",\n".data
      (operations.map (fun op => indentN (depth + 1) ++ prettyOp (depth + 1) op)) ++
    "\n".data ++ indentN depth ++ "]".data

/-- The on-disk serialization of one part file:
`JSON.stringify({ changes: currentPartChanges }, null, 2)`. -/
def prettyPartFile (changes : List (String × Change)) : List Char :=
  match changes with
  | [] => "\x7b\n  \"changes\": \x7b\x7d\n\x7d".data
  | _ =>
    "\x7b\n  \"changes\": \x7b\n".data ++
    List.intercalate ",\n".data
      (changes.map (fun e =>
        indentN 2 ++ jsonQuote e.1.data ++ ": ".data ++ prettyChange 2 e.2)) ++
    "\n  \x7d\n\x7d".data

/-! ### The part splitters -/

/-- One iteration of the splitting loop shared by every paginated writer:
the accumulator is (flushed parts, current part, current accounted size).
A new part is opened when `currentSize + size > MAX_PART_SIZE` and the
current part is non-empty (the merge writer tests only the size, but its
`saveStagePart` returns early on an empty part, which is the same
behavior). -/
def splitStep (acc : List (List (String × Change)) × List (String × Change) × Nat)
    (e : String × Change) :
    List (List (String × Change)) × List (String × Change) × Nat :=
  let size := changeJsonSize e.2
  if MAX_PART_SIZE < acc.2.2 + size ∧ acc.2.1 ≠ [] then
    (acc.1 ++ [acc.2.1], [e], size)
  else
    (acc.1, acc.2.1 ++ [e], acc.2.2 + size)

/-- The guarded splitter (`savePaginatedChanges` in the Caches module, the
commit writer, the merge stage writer): the final flush skips an empty
current part, so an empty mapping yields no parts. -/
def splitChanges (changes : List (String × Change)) :
    List (List (String × Change)) :=
  let final := changes.foldl splitStep ([], [], 0)
  if final.2.1 ≠ [] then final.1 ++ [final.2.1] else final.1

/-- The stage writer inside `add`: its `savePart` has no emptiness guard and
is called unconditionally after the loop, so the final part is flushed even
when empty. -/
def splitChangesAdd (changes : List (String × Change)) :
    List (List (String × Change)) :=
  let final := changes.foldl splitStep ([], [], 0)
  final.1 ++ [final.2.1]

def partNames (prefixStr : String) (parts : List (List (String × Change))) :
    List String :=
  (List.range parts.length).map
    (fun i => prefixStr ++ "part." ++ Nat.repr i ++ ".json")

/-- What a paginated save writes: the manifest's `parts` list and the part
files, in order. -/
structure SaveResult where
  manifestParts : List String
  files : List (String × List (String × Change))
deriving Repr, DecidableEq

/-- `savePaginatedChanges(dirPath, changes)` from the Caches module
(`src/unnamed/part_000`, v0.3.5), as the pure content it writes. -/
def savePaginatedChanges (changes : List (String × Change)) : SaveResult :=
  let parts := splitChanges changes
  ⟨partNames "" parts, (partNames "" parts).zip parts⟩

/-- The stage save performed inline by `add` (`src/workflow/index.js`). -/
def saveStageAdd (changes : List (String × Change)) : SaveResult :=
  let parts := splitChangesAdd changes
  ⟨partNames "" parts, (partNames "" parts).zip parts⟩

/-- The commit part writer inside `commit`: parts named
`<hash>.part.<i>.json`, empty parts skipped. -/
def saveCommitParts (commitHash : String) (changes : List (String × Change)) :
    SaveResult :=
  let parts := splitChanges changes
  ⟨partNames (commitHash ++ ".") parts, (partNames (commitHash ++ ".") parts).zip parts⟩

/-! ### Branching, checkout, merge, commit, reset -/

/-- Branch-name validation of `branch()`: `/[\/\\]/`, `/[\x00-\x1f\x80-\x9f]/`
or `/^\.+$/`. -/
def invalidBranchName (name : String) : Bool :=
  name.data.any (fun c => c == '/' || c == '\\') ||
  name.data.any (fun c =>
    decide (c.toNat < 0x20) || decide (0x80 ≤ c.toNat ∧ c.toNat ≤ 0x9f)) ||
  (!name.data.isEmpty && name.data.all (fun c => c == '.'))

/-- The master/part copy loop of branch creation: each commit's master is
taken from the active local directory, falling back to the remote mirror;
the parts are copied from whichever directory supplied the master. -/
def copyCommitData (localSource remoteSource : Option BranchDir)
    (initialCommits : List String) :
    List (String × CommitObj) × List (String × List (String × Change)) :=
  initialCommits.foldl (fun acc hash =>
    let fromLocal := match localSource with
      | some d => lookupA d.masters hash
      | none => none
    match fromLocal with
    | some master =>
      (setA acc.1 hash master,
        master.parts.foldl (fun pf partName =>
          match localSource with
          | some d =>
            match lookupA d.partFiles partName with
            | some content => setA pf partName content
            | none => pf
          | none => pf) acc.2)
    | none =>
      match remoteSource with
      | some d =>
        match lookupA d.masters hash with
        | some master =>
          (setA acc.1 hash master,
            master.parts.foldl (fun pf partName =>
              match lookupA d.partFiles partName with
              | some content => setA pf partName content
              | none => pf) acc.2)
        | none => acc
      | none => acc) ([], [])

/-- `branch({ name })` as called by `checkout` for a missing branch: the
creation path of `branch()` in the Branching module.  A falsy (empty) name
takes the listing path, which performs no mutation; listing output and the
deletion path are not needed by any claim and are not modeled. -/
def branchCreate (r : Repo) (name : String) : Outcome :=
  if name = "" then ⟨r, Except.ok ""⟩
  else if invalidBranchName name then
    ⟨r, Except.error ("Invalid branch name: \"" ++ name ++
      "\". Branch names cannot contain slashes or illegal characters.")⟩
  else if (lookupA r.branches name).isSome then
    ⟨r, Except.error ("Local branch \"" ++ name ++ "\" already exists.")⟩
  else
    let sourceName := r.head.branch
    let initialCommits := commitsOf r sourceName
    let copied := copyCommitData (lookupA r.branches sourceName)
      (lookupA r.remoteBranches sourceName) initialCommits
    let newRemote :=
      if (lookupA r.remoteBranches name).isSome then r.remoteBranches
      else setA r.remoteBranches name ⟨initialCommits, [], []⟩
    ⟨{ r with
        branches := setA r.branches name ⟨initialCommits, copied.1, copied.2⟩,
        remoteBranches := newRemote },
      Except.ok ("Created branch \"" ++ name ++ "\".")⟩

/-- The dirty test of `checkout`: some working-tree file's content differs
from its entry in `currentState` (a missing entry is `undefined`, which
differs from any string), or some entry of `currentState` has no
working-tree file. -/
def isDirty (worktree currentState : List (String × List Char)) : Bool :=
  worktree.any (fun e => decide (¬ lookupA currentState e.1 = some e.2)) ||
  currentState.any (fun e => (lookupA worktree e.1).isNone)

/-- `checkout(branchName, { force })` from the Branching module
(`src/unnamed/part_008`).  A missing branch is first created implicitly; the
dirty check runs only without `force`; the cleanup loop removes files whose
target entry is falsy (`!targetState[filePath]`: missing or empty); then
every target entry is written and `head.active` is repointed. -/
def checkout (r₀ : Repo) (branchName : String) (force : Bool) : Outcome :=
  let step1 :=
    if (lookupA r₀.branches branchName).isSome then (⟨r₀, Except.ok ""⟩ : Outcome)
    else branchCreate r₀ branchName
  match step1.result with
  | Except.error e => ⟨step1.repo, Except.error e⟩
  | Except.ok _ =>
    let r := step1.repo
    let currentState := getStateByHash r r.head.branch r.head.parent
    if !force && isDirty r.worktree currentState then
      ⟨r, Except.error
        "Your local changes would be overwritten by checkout. Please commit or stash them."⟩
    else
      match lookupA r.branches branchName with
      | none => ⟨r, Except.error "ENOENT: no such file or directory (manifest.json)"⟩
      | some dir =>
        let targetHash := dir.commits.getLast?
        let targetState := getStateByHash r branchName targetHash
        let cleaned := currentState.foldl
          (fun wt e =>
            if ((lookupA targetState e.1).getD []) = [] then eraseA wt e.1 else wt)
          r.worktree
        let written := targetState.foldl (fun wt e => setA wt e.1 e.2) cleaned
        ⟨{ r with worktree := written, head := ⟨branchName, targetHash⟩ },
          Except.ok ("Switched to branch \"" ++ branchName ++ "\".")⟩

/-- `commit(message)` from the Workflow module (`src/workflow/index.js`,
v0.3.5).  `timestamp` stands for `Date.now()` and `commitHash` for the SHA-1
the code computes over `JSON.stringify(stagedChanges) + timestamp + message`;
both are opaque inputs here.  The only guards are a falsy message and a
missing stage directory — the merged change set is NOT tested for emptiness.
Writing into a missing branch history directory throws `ENOENT` before any
visible mutation. -/
def commit (r : Repo) (message : String) (timestamp : Nat) (commitHash : String) :
    Outcome :=
  if message = "" then ⟨r, Except.error "A commit message is required."⟩
  else
    match r.stage with
    | none => ⟨r, Except.error "Nothing to commit (stage is empty)."⟩
    | some stagedChanges =>
      match lookupA r.branches r.head.branch with
      | none => ⟨r, Except.error "ENOENT: no such file or directory"⟩
      | some dir =>
        let saved := saveCommitParts commitHash stagedChanges
        let master : CommitObj :=
          ⟨message, timestamp, r.head.parent, saved.manifestParts⟩
        let dir' : BranchDir :=
          ⟨dir.commits ++ [commitHash],
            setA dir.masters commitHash master,
            saved.files.foldl (fun pf e => setA pf e.1 e.2) dir.partFiles⟩
        ⟨{ r with
            branches := setA r.branches r.head.branch dir',
            head := ⟨r.head.branch, some commitHash⟩,
            stage := none },
          Except.ok ("[" ++ r.head.branch ++ " " ++
            String.mk (commitHash.data.take 7) ++ "] " ++ message)⟩

/-- `reset(hash)` from the Caches module (`src/unnamed/part_000`, v0.3.5).
The stage is destroyed first; a missing `<hash>.json` on the active branch
throws; otherwise `head.active.parent` is set to the hash, the manifest is
truncated up to and including the first index of the hash when present
(`indexOf` returning `-1` skips the truncation), and finally
`checkout(branchName)` runs WITHOUT `force`. -/
def reset (r₀ : Repo) (hash : Option String) : Outcome :=
  let r := { r₀ with stage := none }
  match hash with
  | none => ⟨r, Except.ok "Staging area cleared."⟩
  | some h =>
    let branchName := r.head.branch
    match lookupA r.branches branchName with
    | none =>
      ⟨r, Except.error ("Commit " ++ h ++ " not found in branch " ++ branchName ++ ".")⟩
    | some dir =>
      if (lookupA dir.masters h).isNone then
        ⟨r, Except.error ("Commit " ++ h ++ " not found in branch " ++ branchName ++ ".")⟩
      else
        let r₂ := { r with head := ⟨branchName, some h⟩ }
        let truncated : BranchDir :=
          ⟨dir.commits.take (dir.commits.indexOf h + 1), dir.masters, dir.partFiles⟩
        let r₃ :=
          if h ∈ dir.commits then
            { r₂ with branches := setA r₂.branches branchName truncated }
          else r₂
        let co := checkout r₃ branchName false
        match co.result with
        | Except.error e => ⟨co.repo, Except.error e⟩
        | Except.ok _ =>
          ⟨co.repo, Except.ok ("Branch is now at " ++ String.mk (h.data.take 7) ++
            ". Working directory updated.")⟩

/-- The conflict-marked blob written by `merge`:
`<<<<<<< active\n${active || ''}\n=======\n${target || ''}\n>>>>>>> ${targetBranch}`.
(`active || ''` turns both `undefined` and `''` into `''`, which is
`Option.getD []` on possibly-missing contents since `''.getD` of an empty
entry is also empty.) -/
def conflictMarker (ours theirs : Option (List Char)) (targetBranch : String) :
    List Char :=
  "<<<<<<< active\n".data ++ ours.getD [] ++ "\n=======\n".data ++
  theirs.getD [] ++ "\n>>>>>>> ".data ++ targetBranch.data

/-- The common-ancestor search of `merge`: the most recent commit of the
active manifest (scanned newest to oldest) contained in the target manifest. -/
def mergeAncestor (activeCommits targetCommits : List String) : Option String :=
  activeCommits.reverse.find? (fun h => targetCommits.contains h)

/-- The three states `merge` reconstructs: base (ancestor on the active
branch, empty when no ancestor), ours (active branch at `head.active.parent`)
and theirs (target branch at its last manifest entry). -/
def mergeStates (r : Repo) (targetBranch : String) :
    List (String × List Char) × List (String × List Char) × List (String × List Char) :=
  let activeBranch := r.head.branch
  let ancestor := mergeAncestor (commitsOf r activeBranch) (commitsOf r targetBranch)
  let baseState := match ancestor with
    | some h => getStateByHash r activeBranch (some h)
    | none => []
  (baseState,
   getStateByHash r activeBranch r.head.parent,
   getStateByHash r targetBranch (commitsOf r targetBranch).getLast?)

/-- One file of the merge loop, transforming (working tree, staged changes). -/
def mergeStep (targetBranch : String)
    (baseState activeState targetState : List (String × List Char))
    (acc : List (String × List Char) × List (String × Change)) (filePath : String) :
    List (String × List Char) × List (String × Change) :=
  let base := lookupA baseState filePath
  let active := lookupA activeState filePath
  let target := lookupA targetState filePath
  if active = target then acc
  else if base = active ∧ base ≠ target then
    match target with
    | none => (eraseA acc.1 filePath, setA acc.2 filePath Change.deleteFile)
    | some t => (setA acc.1 filePath t, setA acc.2 filePath (Change.createFile t))
  else if base ≠ active ∧ base ≠ target ∧ active ≠ target then
    (setA acc.1 filePath (conflictMarker active target targetBranch),
     setA acc.2 filePath (Change.createFile (conflictMarker active target targetBranch)))
  else acc

/-- JS `new Set([...])` iteration: keep the first occurrence of each key. -/
def dedupGo : List String → List String → List String
  | _, [] => []
  | seen, x :: xs =>
    if x ∈ seen then dedupGo seen xs else x :: dedupGo (x :: seen) xs

def dedupKeepFirst (l : List String) : List String := dedupGo [] l

/-- `merge(targetBranch)` from the Branching module
(`src/unnamed/part_008`).  The stage directory is destroyed and recreated
empty before the manifests are read (so a missing branch still leaves an
empty stage behind); the loop walks the union of ours/theirs keys once in
first-occurrence order; the staged changes are persisted through the guarded
part writer, whose merged content is the accumulated map.  Nothing else is
touched: no head update, no manifest append, no commit object. -/
def merge (r₀ : Repo) (targetBranch : String) : Outcome :=
  let r := { r₀ with stage := some [] }
  match lookupA r.branches r.head.branch with
  | none => ⟨r, Except.error "ENOENT: no such file or directory (manifest.json)"⟩
  | some _ =>
    match lookupA r.branches targetBranch with
    | none => ⟨r, Except.error "ENOENT: no such file or directory (manifest.json)"⟩
    | some _ =>
      let states := mergeStates r targetBranch
      let allFiles :=
        dedupKeepFirst (states.2.1.map Prod.fst ++ states.2.2.map Prod.fst)
      let folded := allFiles.foldl
        (mergeStep targetBranch states.1 states.2.1 states.2.2) (r.worktree, [])
      ⟨{ r with worktree := folded.1, stage := some folded.2 },
        Except.ok ("Merged " ++ targetBranch ++ ".")⟩

/-- Keys of an association list are pairwise distinct (true of every map that
mirrors a JS object or a directory listing). -/
def keysNodup {α : Type} (m : List (String × α)) : Prop := (m.map Prod.fst).Nodup

/-! ### Concrete repositories used to evaluate the operations -/

/-- Commit `c1`: creates `a.txt` with `"hello\n"`. -/
def commitOne : CommitObj := ⟨"first", 1, none, ["c1.part.0.json"]⟩

/-- Commit `c2`: the delta `hello\n → Hello\n` (delete 1 at 0, insert "H"). -/
def commitTwo : CommitObj := ⟨"cap", 2, some "c1", ["c2.part.0.json"]⟩

/-- A two-commit `main` branch directory. -/
def mainDir : BranchDir :=
  ⟨["c1", "c2"],
   [("c1", commitOne), ("c2", commitTwo)],
   [("c1.part.0.json", [("a.txt", Change.createFile "hello\n".data)]),
    ("c2.part.0.json",
      [("a.txt", Change.ops [Op.delete 0 1 ['h'], Op.insert 0 ['H']])])]⟩

/-- A clean repository at the tip of `main` (working tree = state at `c2`). -/
def baseRepo : Repo :=
  ⟨⟨"main", some "c2"⟩, some [[]], [("main", mainDir)], [], none,
   [("a.txt", "Hello\n".data)]⟩

/-- Like `mainDir` but the manifest lists only `c1` while `c2.json` is still
on disk — the garbage a prior `reset` leaves behind. -/
def orphanDir : BranchDir :=
  ⟨["c1"],
   [("c1", commitOne), ("c2", commitTwo)],
   [("c1.part.0.json", [("a.txt", Change.createFile "hello\n".data)]),
    ("c2.part.0.json",
      [("a.txt", Change.ops [Op.delete 0 1 ['h'], Op.insert 0 ['H']])])]⟩

/-- A repository whose head `c1` is valid but whose branch directory holds
the orphaned commit file `c2.json` absent from the manifest. -/
def orphanRepo : Repo :=
  ⟨⟨"main", some "c1"⟩, some [[]], [("main", orphanDir)], [], none,
   [("a.txt", "Hello\n".data)]⟩

/-- A second branch `x` diverging from `main` after `c1` with commit `c3`
(`a.txt` becomes `"z"`), used to exercise the three-way merge. -/
def branchXDir : BranchDir :=
  ⟨["c1", "c3"],
   [("c1", commitOne), ("c3", ⟨"zed", 3, some "c1", ["c3.part.0.json"]⟩)],
   [("c1.part.0.json", [("a.txt", Change.createFile "hello\n".data)]),
    ("c3.part.0.json", [("a.txt", Change.createFile "z".data)])]⟩

/-- Repository on branch `x` at `c3`, with `main` at `c2` as merge target:
base (`c1`) is `"hello\n"`, ours (`c3`) is `"z"`, theirs (`c2`) is
`"Hello\n"` — a true conflict on `a.txt`. -/
def conflictRepo : Repo :=
  ⟨⟨"x", some "c3"⟩, some [[]],
   [("main", mainDir), ("x", branchXDir)], [], none,
   [("a.txt", "z".data)]⟩

end Artifact

deriving instance DecidableEq for Except

namespace Artifact

theorem commonPrefixLen_nil_right (p : List Char) : commonPrefixLen p [] = 0 := by
  cases p <;> rfl

theorem commonPrefixLen_nil_left (q : List Char) : commonPrefixLen [] q = 0 := by
  cases q <;> rfl

theorem commonPrefixLen_cons (a b : Char) (as bs : List Char) :
    commonPrefixLen (a :: as) (b :: bs) =
      if a = b then commonPrefixLen as bs + 1 else 0 := rfl

/-- Appending the next character to a `take`-slice: used to peel one step of
the suffix scan. -/
theorem take_drop_concat (l : List Char) (start n : Nat) (hn : n < l.length)
    (hs : start ≤ n) :
    (l.take (n + 1)).drop start = (l.take n).drop start ++ [l[n]] := by
  rw [List.take_succ, List.getElem?_eq_getElem hn]
  rw [List.drop_append_of_le_length]
  · simp
  · simp [List.length_take]; omega

theorem commonPrefixLen_le_left (p q : List Char) : commonPrefixLen p q ≤ p.length := by
  induction p generalizing q with
  | nil => simp [commonPrefixLen]
  | cons a as ih =>
    cases q with
    | nil => simp [commonPrefixLen]
    | cons b bs =>
      simp only [commonPrefixLen, List.length_cons]
      split
      · exact Nat.succ_le_succ (ih bs)
      · exact Nat.zero_le _

theorem commonPrefixLen_le_right (p q : List Char) : commonPrefixLen p q ≤ q.length := by
  induction p generalizing q with
  | nil => simp [commonPrefixLen]
  | cons a as ih =>
    cases q with
    | nil => simp [commonPrefixLen]
    | cons b bs =>
      simp only [commonPrefixLen, List.length_cons]
      split
      · exact Nat.succ_le_succ (ih bs)
      · exact Nat.zero_le _

theorem take_commonPrefixLen (p q : List Char) :
    p.take (commonPrefixLen p q) = q.take (commonPrefixLen p q) := by
  induction p generalizing q with
  | nil => simp [commonPrefixLen]
  | cons a as ih =>
    cases q with
    | nil => simp [commonPrefixLen]
    | cons b bs =>
      simp only [commonPrefixLen]
      split
      · next h => simp [List.take_succ_cons, h, ih bs]
      · simp

theorem commonPrefixLen_self (p : List Char) : commonPrefixLen p p = p.length := by
  induction p with
  | nil => simp [commonPrefixLen]
  | cons a as ih => simp [commonPrefixLen, ih]

theorem suffixScan_spec (p q : List Char) (start : Nat) :
    ∀ i j, i ≤ p.length → j ≤ q.length → start ≤ i → start ≤ j →
    p.drop i = q.drop j →
    start ≤ (suffixScan p q start i j).1 ∧ (suffixScan p q start i j).1 ≤ p.length ∧
    start ≤ (suffixScan p q start i j).2 ∧ (suffixScan p q start i j).2 ≤ q.length ∧
    p.drop (suffixScan p q start i j).1 = q.drop (suffixScan p q start i j).2 := by
  intro i
  induction i with
  | zero =>
    intro j hip hjq hsi hsj hdrop
    exact ⟨hsi, Nat.zero_le _, hsj, hjq, hdrop⟩
  | succ i ih =>
    intro j hip hjq hsi hsj hdrop
    rw [suffixScan]
    split
    · next hcond =>
      obtain ⟨h1, h2, h3⟩ := hcond
      have hi : i < p.length := Nat.lt_of_lt_of_le (Nat.lt_succ_self i) hip
      have hj : j - 1 < q.length := by omega
      have hdrop' : p.drop i = q.drop (j - 1) := by
        rw [List.drop_eq_getElem_cons hi, List.drop_eq_getElem_cons hj]
        have hj1 : j - 1 + 1 = j := by omega
        have hsome : some p[i] = some q[j - 1] := by
          rw [← List.getElem?_eq_getElem hi, ← List.getElem?_eq_getElem hj]
          exact h3
        rw [hj1, hdrop]
        simp only [Option.some.injEq] at hsome
        rw [hsome]
      exact ih (j - 1) (Nat.le_of_lt hi) (Nat.le_of_lt hj) (by omega) (by omega) hdrop'
    · exact ⟨hsi, hip, hsj, hjq, hdrop⟩

theorem suffixScan_closed (p q : List Char) (start : Nat) :
    ∀ i j, i ≤ p.length → j ≤ q.length → start ≤ i → start ≤ j →
    suffixScan p q start i j =
      (i - commonPrefixLen ((p.take i).drop start).reverse ((q.take j).drop start).reverse,
       j - commonPrefixLen ((p.take i).drop start).reverse ((q.take j).drop start).reverse) := by
  intro i
  induction i with
  | zero =>
    intro j hip hjq hsi hsj
    have hstart : start = 0 := Nat.le_zero.mp hsi
    subst hstart
    simp [suffixScan, commonPrefixLen]
  | succ i ih =>
    intro j hip hjq hsi hsj
    rw [suffixScan]
    split
    · next hcond =>
      obtain ⟨h1, h2, h3⟩ := hcond
      have hi : i < p.length := Nat.lt_of_lt_of_le (Nat.lt_succ_self i) hip
      have hj : j - 1 < q.length := by omega
      have hstarti : start ≤ i := by omega
      have hstartj : start ≤ j - 1 := by omega
      have hptake := take_drop_concat p start i hi hstarti
      have hqtake : (q.take j).drop start = (q.take (j - 1)).drop start ++ [q[j - 1]] := by
        have h := take_drop_concat q start (j - 1) hj hstartj
        rwa [show j - 1 + 1 = j from by omega] at h
      have hchar : p[i] = q[j - 1] := by
        have hsome : some p[i] = some q[j - 1] := by
          rw [← List.getElem?_eq_getElem hi, ← List.getElem?_eq_getElem hj]
          exact h3
        simpa using hsome
      rw [ih (j - 1) (Nat.le_of_lt hi) (Nat.le_of_lt hj) hstarti hstartj]
      rw [hptake, hqtake, List.reverse_append, List.reverse_append]
      simp only [List.reverse_singleton, List.singleton_append]
      rw [hchar, commonPrefixLen_cons, if_pos rfl]
      simp only [Prod.mk.injEq]
      constructor <;> omega
    · next hcond =>
      push_neg at hcond
      by_cases hc1 : start < i + 1
      · by_cases hc2 : start < j
        · have h3 := hcond hc1 hc2
          have hi : i < p.length := Nat.lt_of_lt_of_le (Nat.lt_succ_self i) hip
          have hj : j - 1 < q.length := by omega
          have hstarti : start ≤ i := by omega
          have hstartj : start ≤ j - 1 := by omega
          have hptake := take_drop_concat p start i hi hstarti
          have hqtake : (q.take j).drop start = (q.take (j - 1)).drop start ++ [q[j - 1]] := by
            have h := take_drop_concat q start (j - 1) hj hstartj
            rwa [show j - 1 + 1 = j from by omega] at h
          have hchar : p[i] ≠ q[j - 1] := by
            intro heq
            apply h3
            rw [List.getElem?_eq_getElem hi, List.getElem?_eq_getElem hj, heq]
          rw [hptake, hqtake, List.reverse_append, List.reverse_append]
          simp only [List.reverse_singleton, List.singleton_append]
          rw [commonPrefixLen_cons, if_neg hchar]
          simp
        · have : (q.take j).drop start = [] := by
            apply List.drop_eq_nil_of_le
            simp [List.length_take]; omega
          rw [this]
          simp [commonPrefixLen_nil_right]
      · have : (p.take (i + 1)).drop start = [] := by
          apply List.drop_eq_nil_of_le
          simp [List.length_take]; omega
        rw [this]
        simp [commonPrefixLen_nil_left]

/-- Shared round-trip lemma: replaying the ops computed by the delta engine
over `previous` reproduces `current`. -/
theorem applyOps_computeOps (p q : List Char) : applyOps p (computeOps p q) = q := by
  have hsp := commonPrefixLen_le_left p q
  have hsq := commonPrefixLen_le_right p q
  set start := commonPrefixLen p q with hstart
  obtain ⟨hs1, hp1, hs2, hq2, hdrop⟩ :=
    suffixScan_spec p q start p.length q.length le_rfl le_rfl hsp hsq (by simp)
  simp only [computeOps, ← hstart]
  set scanned := suffixScan p q start p.length q.length with hscanned
  set i := scanned.1 with hidef
  set j := scanned.2 with hjdef
  set ins := (q.take j).drop start with hinsdef
  have htk : (p.take start).length = start := by
    simp only [List.length_take]
    omega
  have htc : p.take start = q.take start := by
    rw [hstart]
    exact take_commonPrefixLen p q
  have key : p.take start ++ ins ++ p.drop i = q := by
    rw [htc, hdrop, hinsdef]
    have h1 : (q.take j).take start = q.take start := by
      rw [List.take_take]
      congr 1
      omega
    calc q.take start ++ (q.take j).drop start ++ q.drop j
        = (q.take j).take start ++ (q.take j).drop start ++ q.drop j := by rw [h1]
      _ = q.take j ++ q.drop j := by rw [List.take_append_drop]
      _ = q := List.take_append_drop _ _
  have hdelapp : applyOp p (Op.delete start (i - start) ((p.take i).drop start)) =
      p.take start ++ p.drop i := by
    simp only [applyOp]
    congr 2
    omega
  have hinsapp : applyOp (p.take start ++ p.drop i) (Op.insert start ins) =
      p.take start ++ ins ++ p.drop i := by
    simp only [applyOp]
    rw [List.take_left' htk, List.drop_left' htk]
  have hpdecomp : p = p.take start ++ p.drop start := (List.take_append_drop _ _).symm
  by_cases hdelc : 0 < i - start
  · by_cases hinsc : 0 < ins.length
    · rw [if_pos hdelc, if_pos hinsc]
      simp only [applyOps, List.singleton_append, List.foldl_cons, List.foldl_nil]
      rw [hdelapp, hinsapp, key]
    · rw [if_pos hdelc, if_neg hinsc]
      simp only [applyOps, List.foldl_cons, List.foldl_nil]
      rw [hdelapp]
      have hinsnil : ins = [] := by
        cases h : ins with
        | nil => rfl
        | cons x xs => rw [h] at hinsc; simp at hinsc
      calc p.take start ++ p.drop i
          = p.take start ++ ins ++ p.drop i := by rw [hinsnil, List.append_nil]
        _ = q := key
  · have hi : i = start := by omega
    by_cases hinsc : 0 < ins.length
    · rw [if_neg hdelc, if_pos hinsc]
      simp only [applyOps, List.nil_append, List.foldl_cons, List.foldl_nil]
      calc applyOp p (Op.insert start ins)
          = applyOp (p.take start ++ p.drop i) (Op.insert start ins) := by
            rw [hi, ← hpdecomp]
        _ = p.take start ++ ins ++ p.drop i := hinsapp
        _ = q := key
    · rw [if_neg hdelc, if_neg hinsc]
      simp only [applyOps, List.foldl_nil]
      have hinsnil : ins = [] := by
        cases h : ins with
        | nil => rfl
        | cons x xs => rw [h] at hinsc; simp at hinsc
      calc p = p.take start ++ p.drop i := by rw [hi, ← hpdecomp]
        _ = p.take start ++ ins ++ p.drop i := by rw [hinsnil, List.append_nil]
        _ = q := key

/-- Closed form of the delta engine: the common-suffix loop computes the
longest common suffix of the parts after the common prefix, so the emitted
ops are exactly a delete of `previous[start .. |previous|-k)` when that slice
is nonempty followed by an insert of `current[start .. |current|-k)` when
that slice is nonempty, where `start` is the longest-common-prefix length
and `k` the length of the common suffix found by the scan. -/
theorem computeOps_closed (p q : List Char) :
    computeOps p q =
      (if 0 < p.length - commonPrefixLen (p.drop (commonPrefixLen p q)).reverse
            (q.drop (commonPrefixLen p q)).reverse - commonPrefixLen p q then
        [Op.delete (commonPrefixLen p q)
          (p.length - commonPrefixLen (p.drop (commonPrefixLen p q)).reverse
            (q.drop (commonPrefixLen p q)).reverse - commonPrefixLen p q)
          ((p.take (p.length - commonPrefixLen (p.drop (commonPrefixLen p q)).reverse
            (q.drop (commonPrefixLen p q)).reverse)).drop (commonPrefixLen p q))]
      else []) ++
      (if 0 < ((q.take (q.length - commonPrefixLen (p.drop (commonPrefixLen p q)).reverse
            (q.drop (commonPrefixLen p q)).reverse)).drop (commonPrefixLen p q)).length then
        [Op.insert (commonPrefixLen p q)
          ((q.take (q.length - commonPrefixLen (p.drop (commonPrefixLen p q)).reverse
            (q.drop (commonPrefixLen p q)).reverse)).drop (commonPrefixLen p q))]
      else []) := by
  have hsp := commonPrefixLen_le_left p q
  have hsq := commonPrefixLen_le_right p q
  set start := commonPrefixLen p q with hstart
  have hclosed :=
    suffixScan_closed p q start p.length q.length le_rfl le_rfl hsp hsq
  rw [List.take_length, List.take_length] at hclosed
  set k := commonPrefixLen (p.drop start).reverse (q.drop start).reverse with hk
  simp only [computeOps, ← hstart, hclosed, ← hk]
  by_cases hins : 0 < ((q.take (q.length - k)).drop start).length
  · rw [if_pos hins, if_pos hins]
  · rw [if_neg hins, if_neg hins, List.append_nil]

/-- Identical inputs produce no ops, and no ops implies identical inputs. -/
theorem computeOps_eq_nil_iff (p q : List Char) : computeOps p q = [] ↔ p = q := by
  constructor
  · intro h
    have hrt := applyOps_computeOps p q
    rw [h] at hrt
    simpa [applyOps] using hrt
  · rintro rfl
    rw [computeOps_closed]
    simp [commonPrefixLen_self, List.drop_length, commonPrefixLen_nil_left]

/-- C1: for every pair of strings `p` and `q`, applying the op list produced
by the delta engine on `(p, q)` to `p` — each delete removing `op.length`
characters at `op.position` and each insert inserting `op.content` at
`op.position`, in list order — yields exactly `q`. -/
theorem delta_roundtrip_C1 (p q : List Char) : applyOps p (computeOps p q) = q :=
  applyOps_computeOps p q

/-- C2: the delta engine emits exactly a `Delete {position := start, length
:= delLen}` iff `delLen > 0` (with `start` the longest-common-prefix length
and the slice ends found by the common-suffix scan), followed by an `Insert
{position := start, content := current[start..=newEnd]}` iff that slice is
nonempty; identical strings produce no ops; and on `"hello\n" → "Hello\n"`
it produces a delete of length 1 at position 0 followed by an insert of
`"H"` at position 0. -/
theorem delta_emission_C2 :
    (∀ p q : List Char,
      computeOps p q =
        (if 0 < p.length - commonPrefixLen (p.drop (commonPrefixLen p q)).reverse
              (q.drop (commonPrefixLen p q)).reverse - commonPrefixLen p q then
          [Op.delete (commonPrefixLen p q)
            (p.length - commonPrefixLen (p.drop (commonPrefixLen p q)).reverse
              (q.drop (commonPrefixLen p q)).reverse - commonPrefixLen p q)
            ((p.take (p.length - commonPrefixLen (p.drop (commonPrefixLen p q)).reverse
              (q.drop (commonPrefixLen p q)).reverse)).drop (commonPrefixLen p q))]
        else []) ++
        (if 0 < ((q.take (q.length - commonPrefixLen (p.drop (commonPrefixLen p q)).reverse
              (q.drop (commonPrefixLen p q)).reverse)).drop (commonPrefixLen p q)).length then
          [Op.insert (commonPrefixLen p q)
            ((q.take (q.length - commonPrefixLen (p.drop (commonPrefixLen p q)).reverse
              (q.drop (commonPrefixLen p q)).reverse)).drop (commonPrefixLen p q))]
        else [])) ∧
    (∀ p q : List Char, computeOps p q = [] ↔ p = q) ∧
    computeOps "hello\n".data "Hello\n".data =
      [Op.delete 0 1 ['h'], Op.insert 0 ['H']] :=
  ⟨computeOps_closed, computeOps_eq_nil_iff, by decide⟩

/-! ### Association-list lemmas -/

theorem lookupA_setA {α : Type} (m : List (String × α)) (k k' : String) (v : α) :
    lookupA (setA m k v) k' = if k = k' then some v else lookupA m k' := by
  induction m with
  | nil =>
    simp only [setA, lookupA]
  | cons e rest ih =>
    obtain ⟨ek, ev⟩ := e
    by_cases hek : ek = k
    · subst hek
      simp only [setA, if_pos rfl, lookupA]
      by_cases hkk : ek = k'
      · simp [hkk]
      · simp [hkk]
    · simp only [setA, if_neg hek, lookupA]
      by_cases h1 : ek = k'
      · subst h1
        have h2 : ¬ k = ek := fun h => hek h.symm
        simp [h2]
      · simp [h1, ih]

theorem lookupA_eraseA {α : Type} (m : List (String × α)) (k k' : String) :
    lookupA (eraseA m k) k' = if k = k' then none else lookupA m k' := by
  induction m with
  | nil => simp [eraseA, lookupA, ite_self]
  | cons e rest ih =>
    obtain ⟨ek, ev⟩ := e
    simp only [eraseA, List.filter_cons] at *
    by_cases hek : ek = k
    · subst hek
      simp only [bne_self_eq_false, Bool.false_eq_true, if_false, ih]
      by_cases hkk : ek = k'
      · simp [hkk]
      · simp [hkk, lookupA]
    · have hbne : (ek != k) = true := bne_iff_ne.mpr hek
      simp only [hbne, if_true, lookupA, ih]
      by_cases h1 : ek = k'
      · subst h1
        have h3 : ¬ ek = k := hek
        have h4 : ¬ k = ek := fun h => hek h.symm
        simp [h4, if_pos rfl]
      · by_cases h2 : k = k'
        · simp [h1, h2]
        · simp [h1, h2]

theorem lookupA_some_mem {α : Type} (m : List (String × α)) (k : String) (v : α)
    (h : lookupA m k = some v) : (k, v) ∈ m := by
  induction m with
  | nil => simp [lookupA] at h
  | cons e rest ih =>
    obtain ⟨ek, ev⟩ := e
    simp only [lookupA] at h
    by_cases hek : ek = k
    · subst hek
      rw [if_pos rfl] at h
      cases h
      exact List.mem_cons_self _ _
    · rw [if_neg hek] at h
      exact List.mem_cons_of_mem _ (ih h)

theorem lookupA_none_of_not_mem_keys {α : Type} (m : List (String × α)) (k : String)
    (h : k ∉ m.map Prod.fst) : lookupA m k = none := by
  induction m with
  | nil => rfl
  | cons e rest ih =>
    obtain ⟨ek, ev⟩ := e
    simp only [List.map_cons, List.mem_cons, not_or] at h
    simp only [lookupA, if_neg (Ne.symm h.1)]
    exact ih h.2

theorem mem_keys_of_lookupA_some {α : Type} (m : List (String × α)) (k : String)
    (v : α) (h : lookupA m k = some v) : k ∈ m.map Prod.fst := by
  have := lookupA_some_mem m k v h
  exact List.mem_map_of_mem Prod.fst this

/-! ### C10: `getStateByHash` with a hash absent from the manifest -/

theorem replayCommits_of_not_mem (dir : BranchDir) (target : String) :
    ∀ (cs : List String) (state : List (String × List Char)), target ∉ cs →
    replayCommits dir target cs state = replayAllCommits dir cs state := by
  intro cs
  induction cs with
  | nil => intro state _; rfl
  | cons hash rest ih =>
    intro state h
    have h1 : ¬ hash = target := fun he => h (he ▸ List.mem_cons_self _ _)
    have h2 : target ∉ rest := fun hm => h (List.mem_cons_of_mem _ hm)
    simp only [replayCommits, replayAllCommits]
    cases lookupA dir.masters hash with
    | none => exact ih _ h2
    | some master =>
      simp only [if_neg h1]
      exact ih _ h2

/-- C10: for every branch `b` and non-null `targetHash` not occurring in
`local/<b>/manifest.commits`, `getStateByHash(b, targetHash)` raises no
error (it is a total function here) and returns the state obtained by
replaying the entire commit chain of `b` — the branch-tip state — the break
on a matching hash never firing. -/
theorem getStateByHash_absent_target_C10 (r : Repo) (b targetHash : String)
    (hmem : targetHash ∉ commitsOf r b) :
    getStateByHash r b (some targetHash) = branchFullReplay r b := by
  unfold getStateByHash branchFullReplay
  cases hr : r.root with
  | none => rfl
  | some rootParts =>
    cases hb : lookupA r.branches b with
    | none => rfl
    | some dir =>
      have hdir : targetHash ∉ dir.commits := by
        unfold commitsOf at hmem
        rw [hb] at hmem
        exact hmem
      exact replayCommits_of_not_mem dir targetHash dir.commits _ hdir

/-- Witness for C10 at a concrete repository: `"zz"` is not a commit of
`main`, and the lookup equals the full-chain replay. -/
theorem getStateByHash_absent_target_C10_witness :
    "zz" ∉ commitsOf baseRepo "main" ∧
    getStateByHash baseRepo "main" (some "zz") = branchFullReplay baseRepo "main" :=
  ⟨by decide, getStateByHash_absent_target_C10 baseRepo "main" "zz" (by decide)⟩

/-! ### C9: saving an empty change mapping -/

/-- C9 counterexample: the claim says every paginated save of an empty
mapping — including the stage persistence inside `add` — yields
`parts: []` and no part files; but the stage saver of `add` flushes its
final part unconditionally, so an empty mapping writes `part.0.json` with
an empty `changes` object and lists it in the manifest. -/
theorem saveStageAdd_empty_counterexample_C9 :
    saveStageAdd [] =
      ⟨["part.0.json"], [("part.0.json", [])]⟩ ∧
    (saveStageAdd []).manifestParts ≠ [] := by
  constructor
  · rfl
  · intro h
    simp [saveStageAdd, splitChangesAdd, partNames] at h

/-- C9 amended: an empty change mapping saved through `savePaginatedChanges`
(the stash/stage helper) or through the commit part writer produces an empty
manifest (`parts: []`) and no part files; the stage persistence inside `add`
instead always writes exactly one part, so an empty mapping there produces
`parts: ["part.0.json"]` and one part file with an empty `changes` object. -/
theorem save_empty_mapping_C9 :
    savePaginatedChanges [] = ⟨[], []⟩ ∧
    (∀ commitHash : String, saveCommitParts commitHash [] = ⟨[], []⟩) ∧
    saveStageAdd [] = ⟨["part.0.json"], [("part.0.json", [])]⟩ :=
  ⟨rfl, fun _ => rfl, rfl⟩

/-! ### C8: part sizes -/

theorem jsonQuote_replicate_a (n : Nat) :
    (jsonQuote (List.replicate n 'a')).length = n + 2 := by
  have hesc : jsonEscapeChar 'a' = ['a'] := by decide
  simp [jsonQuote, List.map_replicate, hesc]

theorem changeJsonSize_replicate_a (n : Nat) :
    changeJsonSize (Change.createFile (List.replicate n 'a')) = n + 34 := by
  have h31 : ("\x7b\"type\":\"createFile\",\"content\":".data).length = 31 := by decide
  simp [changeJsonSize, jsonChange, jsonQuote_replicate_a, h31]

theorem intercalate_single {α : Type} (sep : List α) (x : List α) :
    List.intercalate sep [x] = x := by
  simp [List.intercalate]

theorem prettyPartFile_replicate_a (n : Nat) :
    (prettyPartFile [("a", Change.createFile (List.replicate n 'a'))]).length =
      n + 87 := by
  have hqa : (jsonQuote "a".data).length = 3 := by decide
  have l1 : ("\x7b\n  \"changes\": \x7b\n".data).length = 17 := by decide
  have l2 : (": ".data).length = 2 := by decide
  have l3 : ("\x7b\n".data).length = 2 := by decide
  have l4 : ("\"type\": \"createFile\",\n".data).length = 22 := by decide
  have l5 : ("\"content\": ".data).length = 11 := by decide
  have l6 : ("\n".data).length = 1 := by decide
  have l7 : ("\x7d".data).length = 1 := by decide
  have l8 : ("\n  \x7d\n\x7d".data).length = 6 := by decide
  simp only [prettyPartFile, prettyChange, List.map_cons, List.map_nil,
    intercalate_single, List.length_append, indentN, List.length_replicate,
    jsonQuote_replicate_a, hqa, l1, l2, l3, l4, l5, l6, l7, l8]
  omega

/-- A single change always lands alone in `part.0`, whatever its size. -/
theorem splitChanges_single (k : String) (c : Change) :
    splitChanges [(k, c)] = [[(k, c)]] := by
  have hstep : splitStep ([], [], 0) (k, c) = ([], [(k, c)], 0 + changeJsonSize c) := by
    simp only [splitStep]
    rw [if_neg]
    · rw [List.nil_append]
    · intro hc
      exact hc.2 rfl
  simp only [splitChanges, List.foldl_cons, List.foldl_nil]
  rw [hstep]
  rw [if_pos (by simp), List.nil_append]

/-- C8 counterexample: the single change
`createFile (replicate 31999966 'a')` has compact JSON size exactly
`MAX_PART_SIZE` (so it does NOT alone exceed the bound), is written to a
single one-entry part, and yet that part's on-disk pretty-printed JSON
serialization is 32000053 bytes — over the bound — because the split
accounting ignores the key, the `changes` wrapper and the 2-space
indentation. -/
theorem partSize_counterexample_C8 :
    splitChanges [("a", Change.createFile (List.replicate 31999966 'a'))] =
      [[("a", Change.createFile (List.replicate 31999966 'a'))]] ∧
    changeJsonSize (Change.createFile (List.replicate 31999966 'a')) ≤ MAX_PART_SIZE ∧
    MAX_PART_SIZE <
      (prettyPartFile [("a", Change.createFile (List.replicate 31999966 'a'))]).length := by
  refine ⟨splitChanges_single "a" _, ?_, ?_⟩
  · rw [changeJsonSize_replicate_a]
    norm_num [MAX_PART_SIZE]
  · rw [prettyPartFile_replicate_a]
    norm_num [MAX_PART_SIZE]

theorem splitStep_fold_invariant (changes : List (String × Change)) :
    ∀ acc : List (List (String × Change)) × List (String × Change) × Nat,
    acc.2.2 = (acc.2.1.map fun e => changeJsonSize e.2).sum →
    (∀ part ∈ acc.1,
      (part.map fun e => changeJsonSize e.2).sum ≤ MAX_PART_SIZE ∨ part.length = 1) →
    ((acc.2.1.map fun e => changeJsonSize e.2).sum ≤ MAX_PART_SIZE ∨
      acc.2.1.length = 1) →
    (changes.foldl splitStep acc).2.2 =
      (((changes.foldl splitStep acc).2.1).map fun e => changeJsonSize e.2).sum ∧
    (∀ part ∈ (changes.foldl splitStep acc).1,
      (part.map fun e => changeJsonSize e.2).sum ≤ MAX_PART_SIZE ∨ part.length = 1) ∧
    ((((changes.foldl splitStep acc).2.1).map fun e => changeJsonSize e.2).sum ≤
        MAX_PART_SIZE ∨
      ((changes.foldl splitStep acc).2.1).length = 1) := by
  induction changes with
  | nil => intro acc h1 h2 h3; exact ⟨h1, h2, h3⟩
  | cons e rest ih =>
    intro acc h1 h2 h3
    simp only [List.foldl_cons]
    by_cases hcond :
        MAX_PART_SIZE < acc.2.2 + changeJsonSize e.2 ∧ acc.2.1 ≠ []
    · have hstep : splitStep acc e = (acc.1 ++ [acc.2.1], [e], changeJsonSize e.2) := by
        simp only [splitStep, if_pos hcond]
      rw [hstep]
      apply ih
      · simp
      · intro part hpart
        rcases List.mem_append.mp hpart with hin | hin
        · exact h2 part hin
        · rcases List.mem_singleton.mp hin with rfl
          exact h3
      · right; rfl
    · have hstep : splitStep acc e =
          (acc.1, acc.2.1 ++ [e], acc.2.2 + changeJsonSize e.2) := by
        simp only [splitStep, if_neg hcond]
      rw [hstep]
      apply ih
      · simp [h1]
      · exact h2
      · push_neg at hcond
        by_cases hnil : acc.2.1 = []
        · right
          simp [hnil]
        · left
          have hle : acc.2.2 + changeJsonSize e.2 ≤ MAX_PART_SIZE := by
            by_contra hgt
            push_neg at hgt
            exact hnil (hcond hgt)
          rw [List.map_append, List.sum_append]
          simp only [List.map_cons, List.map_nil, List.sum_cons, List.sum_nil]
          rw [← h1]
          omega

/-- C8 amended: what the splitter really bounds is the accounted size — the
sum over a part of the byte lengths of the compact JSON encodings of its
change values alone (keys, the `changes` wrapper and pretty-printing
excluded): every part written by `savePaginatedChanges` has accounted sum
at most `MAX_PART_SIZE`, or holds a single change entry; the on-disk
pretty-printed serialization may exceed the bound by the key and formatting
overhead. -/
theorem partSize_accounting_C8 (changes : List (String × Change)) :
    (savePaginatedChanges changes).files.map Prod.snd = splitChanges changes ∧
    ∀ part ∈ splitChanges changes,
      (part.map fun e => changeJsonSize e.2).sum ≤ MAX_PART_SIZE ∨
        part.length = 1 := by
  constructor
  · show ((partNames "" (splitChanges changes)).zip (splitChanges changes)).map
        Prod.snd = splitChanges changes
    apply List.map_snd_zip
    simp [partNames]
  · intro part hpart
    have hinv := splitStep_fold_invariant changes ([], [], 0) rfl
      (by intro p hp; simp at hp) (Or.inl (by simp [MAX_PART_SIZE]))
    obtain ⟨-, hparts, hcur⟩ := hinv
    unfold splitChanges at hpart
    by_cases hnil : (changes.foldl splitStep ([], [], 0)).2.1 = []
    · rw [if_neg (by simp [hnil])] at hpart
      exact hparts part hpart
    · rw [if_pos hnil] at hpart
      rcases List.mem_append.mp hpart with hin | hin
      · exact hparts part hin
      · rcases List.mem_singleton.mp hin with rfl
        exact hcur

/-- Witness for C8 amended at a concrete input: a one-entry mapping. -/
theorem partSize_accounting_C8_witness :
    (savePaginatedChanges [("a", Change.deleteFile)]).files.map Prod.snd =
      splitChanges [("a", Change.deleteFile)] ∧
    (([("a", Change.deleteFile)].map fun e => changeJsonSize e.2).sum ≤
        MAX_PART_SIZE ∨
      ([("a", Change.deleteFile)] : List (String × Change)).length = 1) :=
  ⟨(partSize_accounting_C8 [("a", Change.deleteFile)]).1,
   (partSize_accounting_C8 [("a", Change.deleteFile)]).2
     [("a", Change.deleteFile)] (by decide)⟩

/-! ### C5: commit on an absent or empty stage -/

/-- C5 counterexample: on a repository whose stage directory exists but
whose merged change set is empty, `commit` does NOT fail — it creates a
commit object (with an empty `parts` list), appends its hash to the branch
manifest, moves `head.active.parent`, and destroys the stage. -/
theorem commit_empty_changes_counterexample_C5 :
    (commit { baseRepo with stage := some [] } "empty" 5 "c3").result =
      Except.ok "[main c3] empty" ∧
    commitsOf (commit { baseRepo with stage := some [] } "empty" 5 "c3").repo "main" =
      ["c1", "c2", "c3"] ∧
    (commit { baseRepo with stage := some [] } "empty" 5 "c3").repo.head.parent =
      some "c3" ∧
    ((lookupA (commit { baseRepo with stage := some [] } "empty" 5 "c3").repo.branches
        "main").bind (fun d => lookupA d.masters "c3")) =
      some ⟨"empty", 5, some "c2", []⟩ ∧
    (commit { baseRepo with stage := some [] } "empty" 5 "c3").repo.stage = none := by
  refine ⟨?_, ?_, ?_, ?_, ?_⟩ <;> decide

/-- C5 amended: `commit(message)` fails — creating no commit object,
appending nothing, moving nothing — when the stage directory is absent (or
the message is empty, in which case nothing at all is read); but a present
stage whose merged change set is empty commits successfully: it writes a
master with `parts: []`, appends the hash to the branch manifest, sets
`head.active.parent` to the hash and destroys the stage. -/
theorem commit_behavior_C5 (r : Repo) (message : String) (timestamp : Nat)
    (commitHash : String) :
    (message = "" →
      commit r message timestamp commitHash =
        ⟨r, Except.error "A commit message is required."⟩) ∧
    (message ≠ "" → r.stage = none →
      commit r message timestamp commitHash =
        ⟨r, Except.error "Nothing to commit (stage is empty)."⟩) ∧
    (message ≠ "" → r.stage = some [] →
      ∀ dir, lookupA r.branches r.head.branch = some dir →
      (commit r message timestamp commitHash).result =
        Except.ok ("[" ++ r.head.branch ++ " " ++
          String.mk (commitHash.data.take 7) ++ "] " ++ message) ∧
      (commit r message timestamp commitHash).repo.head.parent = some commitHash ∧
      commitsOf (commit r message timestamp commitHash).repo r.head.branch =
        dir.commits ++ [commitHash] ∧
      ((lookupA (commit r message timestamp commitHash).repo.branches
          r.head.branch).bind (fun d => lookupA d.masters commitHash)) =
        some ⟨message, timestamp, r.head.parent, []⟩ ∧
      (commit r message timestamp commitHash).repo.stage = none) := by
  refine ⟨?_, ?_, ?_⟩
  · intro hmsg
    simp only [commit, if_pos hmsg]
  · intro hmsg hstage
    simp only [commit, if_neg hmsg, hstage]
  · intro hmsg hstage dir hdir
    have hsave : saveCommitParts commitHash [] = ⟨[], []⟩ := rfl
    simp only [commit, if_neg hmsg, hstage, hdir, hsave]
    refine ⟨trivial, trivial, ?_, ?_, trivial⟩
    · unfold commitsOf
      rw [lookupA_setA, if_pos rfl]
    · rw [lookupA_setA, if_pos rfl, Option.some_bind, lookupA_setA, if_pos rfl]

/-- Witness for C5 amended: the failure clause at a concrete repository
with no stage. -/
theorem commit_behavior_C5_witness :
    commit baseRepo "m" 0 "h" =
      ⟨baseRepo, Except.error "Nothing to commit (stage is empty)."⟩ :=
  (commit_behavior_C5 baseRepo "m" 0 "h").2.1 (by decide) rfl

/-! ### C7: merge conflicts and the merge frame -/

theorem mem_dedupGo (seen l : List String) (x : String) :
    x ∈ dedupGo seen l ↔ x ∈ l ∧ x ∉ seen := by
  induction l generalizing seen with
  | nil => simp [dedupGo]
  | cons y ys ih =>
    simp only [dedupGo]
    by_cases hy : y ∈ seen
    · rw [if_pos hy, ih]
      constructor
      · rintro ⟨h1, h2⟩
        exact ⟨List.mem_cons_of_mem _ h1, h2⟩
      · rintro ⟨h1, h2⟩
        rcases List.mem_cons.mp h1 with rfl | h1
        · exact absurd hy h2
        · exact ⟨h1, h2⟩
    · rw [if_neg hy]
      simp only [List.mem_cons, ih, List.mem_cons, not_or]
      constructor
      · rintro (rfl | ⟨h1, h2, h3⟩)
        · exact ⟨Or.inl rfl, hy⟩
        · exact ⟨Or.inr h1, h3⟩
      · rintro ⟨rfl | h1, h2⟩
        · exact Or.inl rfl
        · by_cases hx : x = y
          · exact Or.inl hx
          · exact Or.inr ⟨h1, hx, h2⟩

theorem mem_dedupKeepFirst (l : List String) (x : String) :
    x ∈ dedupKeepFirst l ↔ x ∈ l := by
  rw [dedupKeepFirst, mem_dedupGo]
  simp

theorem nodup_dedupGo (seen l : List String) : (dedupGo seen l).Nodup := by
  induction l generalizing seen with
  | nil => exact List.nodup_nil
  | cons y ys ih =>
    simp only [dedupGo]
    by_cases hy : y ∈ seen
    · rw [if_pos hy]; exact ih seen
    · rw [if_neg hy]
      refine List.Nodup.cons ?_ (ih (y :: seen))
      intro hmem
      exact ((mem_dedupGo _ _ _).mp hmem).2 (List.mem_cons_self _ _)

theorem nodup_dedupKeepFirst (l : List String) : (dedupKeepFirst l).Nodup :=
  nodup_dedupGo [] l

/-- A merge step at a different path leaves both accumulators' lookups at
`pth` unchanged. -/
theorem mergeStep_preserves (targetBranch : String)
    (bs as ts : List (String × List Char))
    (acc : List (String × List Char) × List (String × Change))
    (f pth : String) (hne : f ≠ pth) :
    lookupA (mergeStep targetBranch bs as ts acc f).1 pth = lookupA acc.1 pth ∧
    lookupA (mergeStep targetBranch bs as ts acc f).2 pth = lookupA acc.2 pth := by
  simp only [mergeStep]
  split
  · exact ⟨rfl, rfl⟩
  · split
    · split
      · exact ⟨by rw [lookupA_eraseA, if_neg hne], by rw [lookupA_setA, if_neg hne]⟩
      · exact ⟨by rw [lookupA_setA, if_neg hne], by rw [lookupA_setA, if_neg hne]⟩
    · split
      · exact ⟨by rw [lookupA_setA, if_neg hne], by rw [lookupA_setA, if_neg hne]⟩
      · exact ⟨rfl, rfl⟩

theorem mergeFold_preserves (targetBranch : String)
    (bs as ts : List (String × List Char)) (files : List String) :
    ∀ (acc : List (String × List Char) × List (String × Change)) (pth : String),
    pth ∉ files →
    lookupA (files.foldl (mergeStep targetBranch bs as ts) acc).1 pth =
      lookupA acc.1 pth ∧
    lookupA (files.foldl (mergeStep targetBranch bs as ts) acc).2 pth =
      lookupA acc.2 pth := by
  induction files with
  | nil => intro acc pth _; exact ⟨rfl, rfl⟩
  | cons f rest ih =>
    intro acc pth hpth
    have hne : f ≠ pth := fun he => hpth (he ▸ List.mem_cons_self _ _)
    have hrest : pth ∉ rest := fun hm => hpth (List.mem_cons_of_mem _ hm)
    simp only [List.foldl_cons]
    have hstep := mergeStep_preserves targetBranch bs as ts acc f pth hne
    have hfold := ih (mergeStep targetBranch bs as ts acc f) pth hrest
    exact ⟨hfold.1.trans hstep.1, hfold.2.trans hstep.2⟩

/-- Walking the file list over a true conflict at `pth` leaves the conflict
marker in the working tree and the `CreateFile` in the staged map. -/
theorem mergeFold_conflict (targetBranch : String)
    (bs as ts : List (String × List Char)) (files : List String) :
    ∀ (acc : List (String × List Char) × List (String × Change)) (pth : String),
    pth ∈ files → files.Nodup →
    lookupA bs pth ≠ lookupA as pth →
    lookupA bs pth ≠ lookupA ts pth →
    lookupA as pth ≠ lookupA ts pth →
    lookupA (files.foldl (mergeStep targetBranch bs as ts) acc).1 pth =
      some (conflictMarker (lookupA as pth) (lookupA ts pth) targetBranch) ∧
    lookupA (files.foldl (mergeStep targetBranch bs as ts) acc).2 pth =
      some (Change.createFile
        (conflictMarker (lookupA as pth) (lookupA ts pth) targetBranch)) := by
  induction files with
  | nil => intro acc pth h; simp at h
  | cons f rest ih =>
    intro acc pth hmem hnodup hba hbt hat
    simp only [List.foldl_cons]
    by_cases hf : f = pth
    · subst hf
      have hrest : f ∉ rest := (List.nodup_cons.mp hnodup).1
      have hstep : mergeStep targetBranch bs as ts acc f =
          (setA acc.1 f (conflictMarker (lookupA as f) (lookupA ts f) targetBranch),
           setA acc.2 f (Change.createFile
             (conflictMarker (lookupA as f) (lookupA ts f) targetBranch))) := by
        simp only [mergeStep]
        rw [if_neg hat, if_neg (fun hc => hba hc.1), if_pos ⟨hba, hbt, hat⟩]
      rw [hstep]
      have hpres := mergeFold_preserves targetBranch bs as ts rest
        (setA acc.1 f (conflictMarker (lookupA as f) (lookupA ts f) targetBranch),
         setA acc.2 f (Change.createFile
           (conflictMarker (lookupA as f) (lookupA ts f) targetBranch)))
        f hrest
      refine ⟨hpres.1.trans ?_, hpres.2.trans ?_⟩
      · rw [lookupA_setA, if_pos rfl]
      · rw [lookupA_setA, if_pos rfl]
    · have hmem' : pth ∈ rest := by
        rcases List.mem_cons.mp hmem with rfl | h
        · exact absurd rfl hf
        · exact h
      exact ih _ pth hmem' (List.nodup_cons.mp hnodup).2 hba hbt hat

/-- C7: for every `merge(targetBranch)` (both branch directories present)
and every path where base ≠ ours, base ≠ theirs and ours ≠ theirs, merge
writes the conflict-marked blob
`<<<<<<< active\n<ours or empty>\n=======\n<theirs or empty>\n>>>>>>> <targetBranch>`
to the working tree and stages it as `CreateFile` with that content; and
merge modifies only the stage and working tree — `head.active`, every branch
manifest and every commit object are unchanged. -/
theorem merge_conflict_C7 (r : Repo) (targetBranch pth : String)
    (hactive : (lookupA r.branches r.head.branch).isSome)
    (htarget : (lookupA r.branches targetBranch).isSome)
    (hba : lookupA (mergeStates r targetBranch).1 pth ≠
      lookupA (mergeStates r targetBranch).2.1 pth)
    (hbt : lookupA (mergeStates r targetBranch).1 pth ≠
      lookupA (mergeStates r targetBranch).2.2 pth)
    (hat : lookupA (mergeStates r targetBranch).2.1 pth ≠
      lookupA (mergeStates r targetBranch).2.2 pth) :
    (merge r targetBranch).result = Except.ok ("Merged " ++ targetBranch ++ ".") ∧
    lookupA (merge r targetBranch).repo.worktree pth =
      some (conflictMarker (lookupA (mergeStates r targetBranch).2.1 pth)
        (lookupA (mergeStates r targetBranch).2.2 pth) targetBranch) ∧
    lookupA (((merge r targetBranch).repo.stage).getD []) pth =
      some (Change.createFile
        (conflictMarker (lookupA (mergeStates r targetBranch).2.1 pth)
          (lookupA (mergeStates r targetBranch).2.2 pth) targetBranch)) ∧
    (merge r targetBranch).repo.head = r.head ∧
    (merge r targetBranch).repo.branches = r.branches ∧
    (merge r targetBranch).repo.remoteBranches = r.remoteBranches := by
  obtain ⟨adir, hadir⟩ := Option.isSome_iff_exists.mp hactive
  obtain ⟨tdir, htdir⟩ := Option.isSome_iff_exists.mp htarget
  have hstates : mergeStates { r with stage := some [] } targetBranch =
      mergeStates r targetBranch := rfl
  have hpmem : pth ∈ dedupKeepFirst
      ((mergeStates r targetBranch).2.1.map Prod.fst ++
        (mergeStates r targetBranch).2.2.map Prod.fst) := by
    rw [mem_dedupKeepFirst, List.mem_append]
    cases hl : lookupA (mergeStates r targetBranch).2.1 pth with
    | some v => exact Or.inl (mem_keys_of_lookupA_some _ _ _ hl)
    | none =>
      cases hl2 : lookupA (mergeStates r targetBranch).2.2 pth with
      | some w => exact Or.inr (mem_keys_of_lookupA_some _ _ _ hl2)
      | none => exact absurd (hl.trans hl2.symm) hat
  have hfold := mergeFold_conflict targetBranch (mergeStates r targetBranch).1
    (mergeStates r targetBranch).2.1 (mergeStates r targetBranch).2.2
    (dedupKeepFirst ((mergeStates r targetBranch).2.1.map Prod.fst ++
      (mergeStates r targetBranch).2.2.map Prod.fst))
    (r.worktree, []) pth hpmem
    (nodup_dedupKeepFirst _) hba hbt hat
  refine ⟨?_, ?_, ?_, ?_, ?_, ?_⟩
  · simp only [merge, hadir, htdir]
  · simp only [merge, hadir, htdir, hstates]
    exact hfold.1
  · simp only [merge, hadir, htdir, hstates, Option.getD_some]
    exact hfold.2
  · simp only [merge, hadir, htdir]
  · simp only [merge, hadir, htdir]
  · simp only [merge, hadir, htdir]

/-- Witness for C7: on `conflictRepo` (branch `x` at `"z"`, `main` at
`"Hello\n"`, base `"hello\n"`), merging `main` stages and writes the
conflict marker for `a.txt` and leaves head and branches alone. -/
theorem merge_conflict_C7_witness :
    (merge conflictRepo "main").result = Except.ok "Merged main." ∧
    lookupA (merge conflictRepo "main").repo.worktree "a.txt" =
      some (conflictMarker (some "z".data) (some "Hello\n".data) "main") ∧
    lookupA (((merge conflictRepo "main").repo.stage).getD []) "a.txt" =
      some (Change.createFile
        (conflictMarker (some "z".data) (some "Hello\n".data) "main")) ∧
    (merge conflictRepo "main").repo.head = conflictRepo.head ∧
    (merge conflictRepo "main").repo.branches = conflictRepo.branches ∧
    (merge conflictRepo "main").repo.remoteBranches = conflictRepo.remoteBranches := by
  have h := merge_conflict_C7 conflictRepo "main" "a.txt"
    (by decide) (by decide) (by decide) (by decide) (by decide)
  have h1 : lookupA (mergeStates conflictRepo "main").2.1 "a.txt" =
      some "z".data := by decide
  have h2 : lookupA (mergeStates conflictRepo "main").2.2 "a.txt" =
      some "Hello\n".data := by decide
  rw [h1, h2] at h
  exact h

/-! ### C6: the non-forced checkout dirty guard -/

/-- `getStateByHash` depends only on the root store and the branch looked
up. -/
theorem getStateByHash_congr (r r' : Repo) (b : String) (t : Option String)
    (hroot : r'.root = r.root)
    (hb : lookupA r'.branches b = lookupA r.branches b) :
    getStateByHash r' b t = getStateByHash r b t := by
  unfold getStateByHash
  rw [hroot, hb]

/-- Evaluation of `branch({name})` on a fresh, valid, non-empty name. -/
theorem branchCreate_fresh (r : Repo) (name : String) (hne : name ≠ "")
    (hvalid : invalidBranchName name = false)
    (hnone : lookupA r.branches name = none) :
    branchCreate r name =
      ⟨{ r with
          branches := setA r.branches name
            ⟨commitsOf r r.head.branch,
             (copyCommitData (lookupA r.branches r.head.branch)
               (lookupA r.remoteBranches r.head.branch)
               (commitsOf r r.head.branch)).1,
             (copyCommitData (lookupA r.branches r.head.branch)
               (lookupA r.remoteBranches r.head.branch)
               (commitsOf r r.head.branch)).2⟩,
          remoteBranches :=
            if (lookupA r.remoteBranches name).isSome then r.remoteBranches
            else setA r.remoteBranches name ⟨commitsOf r r.head.branch, [], []⟩ },
        Except.ok ("Created branch \"" ++ name ++ "\".")⟩ := by
  simp only [branchCreate, if_neg hne, hvalid, Bool.false_eq_true, if_false,
    hnone, Option.isSome_none]

/-- C6 counterexample: a non-forced `checkout` of a branch that does not
exist yet, on a dirty tree, fails with the local-changes error as the claim
says — but the branch manifests are NOT unchanged: the implicit branch
creation ran before the dirty check and left a brand-new branch directory
(with a copied manifest) behind. -/
theorem checkout_dirty_counterexample_C6 :
    (checkout { baseRepo with worktree := [("a.txt", "x".data)] } "feature"
        false).result =
      Except.error
        "Your local changes would be overwritten by checkout. Please commit or stash them." ∧
    lookupA ({ baseRepo with worktree := [("a.txt", "x".data)] } : Repo).branches
        "feature" = none ∧
    lookupA (checkout { baseRepo with worktree := [("a.txt", "x".data)] } "feature"
        false).repo.branches "feature" =
      some mainDir := by
  refine ⟨?_, ?_, ?_⟩ <;> decide

/-- C6 amended: for a non-forced `checkout(branch)` when the active branch
directory exists and the target branch either exists, is empty, or has a
valid name: if the working tree is dirty against the state at the active
head (some file differs from its entry — a missing entry differs from any
content — or some entry has no file), the call fails with the
local-changes-would-be-overwritten error, and the working tree, head state
and every PREVIOUSLY EXISTING branch manifest are unchanged — though a
missing target branch has already been implicitly created; if the tree is
clean, the call does not fail with that error. -/
theorem checkout_dirty_C6 (r : Repo) (branchName : String)
    (hactive : (lookupA r.branches r.head.branch).isSome = true)
    (hcreate : (lookupA r.branches branchName).isSome = true ∨ branchName = "" ∨
      invalidBranchName branchName = false) :
    (isDirty r.worktree (getStateByHash r r.head.branch r.head.parent) = true →
      (checkout r branchName false).result =
        Except.error
          "Your local changes would be overwritten by checkout. Please commit or stash them." ∧
      (checkout r branchName false).repo.worktree = r.worktree ∧
      (checkout r branchName false).repo.head = r.head ∧
      ∀ b, (lookupA r.branches b).isSome = true →
        lookupA (checkout r branchName false).repo.branches b =
          lookupA r.branches b) ∧
    (isDirty r.worktree (getStateByHash r r.head.branch r.head.parent) = false →
      (checkout r branchName false).result ≠
        Except.error
          "Your local changes would be overwritten by checkout. Please commit or stash them.") := by
  by_cases hex : (lookupA r.branches branchName).isSome = true
  · -- target branch already exists: no implicit creation
    obtain ⟨tdir, htdir⟩ := Option.isSome_iff_exists.mp hex
    constructor
    · intro hdirty
      refine ⟨?_, ?_, ?_, fun b _ => ?_⟩ <;>
        simp [checkout, hex, hdirty]
    · intro hclean
      simp only [checkout, hex, if_true, Bool.not_false, Bool.true_and, hclean,
        Bool.false_eq_true, if_false, htdir, Option.isSome_some]
      intro hcontra
      cases hcontra
  · have hnone : lookupA r.branches branchName = none := by
      cases hl : lookupA r.branches branchName with
      | none => rfl
      | some d => rw [hl] at hex; simp at hex
    by_cases hempty : branchName = ""
    · -- empty name: `branch()` takes the listing path, no mutation;
      -- the manifest read then fails with ENOENT, not the dirty error
      subst hempty
      have hbc : branchCreate r "" = ⟨r, Except.ok ""⟩ := by
        simp [branchCreate]
      constructor
      · intro hdirty
        refine ⟨?_, ?_, ?_, fun b _ => ?_⟩ <;>
          simp [checkout, hnone, hbc, hdirty]
      · intro hclean
        simp only [checkout, hnone, Option.isSome_none, Bool.false_eq_true,
          if_false, hbc, Bool.not_false, Bool.true_and, hclean]
        intro hcontra
        exact absurd (Except.error.inj hcontra) (by decide)
    · -- valid fresh name: implicit creation succeeds, then the dirty check
      have hvalid : invalidBranchName branchName = false := by
        rcases hcreate with h | h | h
        · exact absurd h hex
        · exact absurd h hempty
        · exact h
      have hbc := branchCreate_fresh r branchName hempty hvalid hnone
      have hres : (branchCreate r branchName).result =
          Except.ok ("Created branch \"" ++ branchName ++ "\".") := by rw [hbc]
      have hbr : (branchCreate r branchName).repo.branches =
          setA r.branches branchName
            ⟨commitsOf r r.head.branch,
             (copyCommitData (lookupA r.branches r.head.branch)
               (lookupA r.remoteBranches r.head.branch)
               (commitsOf r r.head.branch)).1,
             (copyCommitData (lookupA r.branches r.head.branch)
               (lookupA r.remoteBranches r.head.branch)
               (commitsOf r r.head.branch)).2⟩ := by rw [hbc]
      have hwt : (branchCreate r branchName).repo.worktree = r.worktree := by
        rw [hbc]
      have hhd : (branchCreate r branchName).repo.head = r.head := by rw [hbc]
      have hrt : (branchCreate r branchName).repo.root = r.root := by rw [hbc]
      have hneact : branchName ≠ r.head.branch := by
        intro he
        rw [← he, hnone] at hactive
        simp at hactive
      have hlookact : lookupA (branchCreate r branchName).repo.branches
          r.head.branch = lookupA r.branches r.head.branch := by
        rw [hbr, lookupA_setA, if_neg hneact]
      have hstate' : getStateByHash (branchCreate r branchName).repo
          r.head.branch r.head.parent =
          getStateByHash r r.head.branch r.head.parent :=
        getStateByHash_congr r _ r.head.branch r.head.parent hrt hlookact
      have hlookself : lookupA (branchCreate r branchName).repo.branches
          branchName =
          some ⟨commitsOf r r.head.branch,
            (copyCommitData (lookupA r.branches r.head.branch)
              (lookupA r.remoteBranches r.head.branch)
              (commitsOf r r.head.branch)).1,
            (copyCommitData (lookupA r.branches r.head.branch)
              (lookupA r.remoteBranches r.head.branch)
              (commitsOf r r.head.branch)).2⟩ := by
        rw [hbr, lookupA_setA, if_pos rfl]
      constructor
      · intro hdirty
        refine ⟨?_, ?_, ?_, fun b hb => ?_⟩
        · simp [checkout, hnone, hres, hhd, hwt, hstate', hdirty]
        · simp [checkout, hnone, hres, hhd, hwt, hstate', hdirty]
        · simp [checkout, hnone, hres, hhd, hwt, hstate', hdirty]
        · have hneb : branchName ≠ b := by
            intro he
            rw [← he, hnone] at hb
            simp at hb
          simp only [checkout, hnone, Option.isSome_none, Bool.false_eq_true,
            if_false, hres, Bool.not_false, Bool.true_and, hhd, hwt, hstate',
            hdirty, if_true]
          rw [hbr, lookupA_setA, if_neg hneb]
      · intro hclean
        simp only [checkout, hnone, Option.isSome_none, Bool.false_eq_true,
          if_false, hres, Bool.not_false, Bool.true_and, hhd, hwt, hstate',
          hclean, hlookself]
        intro hcontra
        cases hcontra

/-- Witness for C6 amended: a dirty tree on an existing branch is rejected. -/
theorem checkout_dirty_C6_witness :
    (checkout { baseRepo with worktree := [("a.txt", "x".data)] } "main"
        false).result =
      Except.error
        "Your local changes would be overwritten by checkout. Please commit or stash them." :=
  ((checkout_dirty_C6 { baseRepo with worktree := [("a.txt", "x".data)] } "main"
    (by decide) (Or.inl (by decide))).1 (by decide)).1

/-! ### C3: reset to a hash present in the branch manifest -/

theorem indexOf_cons_self_str (a : String) (l : List String) :
    (a :: l).indexOf a = 0 := by
  simp [List.indexOf, List.findIdx_cons]

theorem indexOf_cons_ne_str (a b : String) (l : List String) (h : a ≠ b) :
    (a :: l).indexOf b = l.indexOf b + 1 := by
  have hb : (a == b) = false := beq_eq_false_iff_ne.mpr h
  simp [List.indexOf, List.findIdx_cons, hb]

/-- Truncating a manifest after the first occurrence of `h` makes `h` its
last entry. -/
theorem getLast?_take_indexOf (l : List String) (h : String) (hmem : h ∈ l) :
    (l.take (l.indexOf h + 1)).getLast? = some h := by
  induction l with
  | nil => simp at hmem
  | cons c rest ih =>
    by_cases hc : c = h
    · subst hc
      rw [indexOf_cons_self_str]
      simp
    · have hmem' : h ∈ rest := by
        rcases List.mem_cons.mp hmem with he | hr
        · exact absurd he.symm hc
        · exact hr
      rw [indexOf_cons_ne_str c h rest hc, List.take_succ_cons,
        List.getLast?_cons, ih hmem']
      rfl

/-- `h` stays in the truncated manifest. -/
theorem mem_take_indexOf (l : List String) (h : String) (hmem : h ∈ l) :
    h ∈ l.take (l.indexOf h + 1) := by
  induction l with
  | nil => simp at hmem
  | cons c rest ih =>
    by_cases hc : c = h
    · subst hc
      rw [indexOf_cons_self_str]
      simp
    · have hmem' : h ∈ rest := by
        rcases List.mem_cons.mp hmem with he | hr
        · exact absurd he.symm hc
        · exact hr
      rw [indexOf_cons_ne_str c h rest hc, List.take_succ_cons]
      exact List.mem_cons_of_mem _ (ih hmem')

/-- The replay only reads `masters` and `partFiles` of the directory, never
its `commits` field. -/
theorem replayCommits_masters_congr (d d' : BranchDir)
    (hm : d.masters = d'.masters) (hp : d.partFiles = d'.partFiles)
    (target : String) : ∀ (cs : List String) (st : List (String × List Char)),
    replayCommits d target cs st = replayCommits d' target cs st := by
  intro cs
  induction cs with
  | nil => intro st; rfl
  | cons c rest ih =>
    intro st
    simp only [replayCommits, hm]
    cases lookupA d'.masters c with
    | none => exact ih st
    | some master =>
      have hfull : commitFullChanges d master = commitFullChanges d' master := by
        unfold commitFullChanges
        rw [hp]
      simp only [hfull]
      by_cases hc : c = target
      · rw [if_pos hc, if_pos hc]
      · rw [if_neg hc, if_neg hc]
        exact ih _

/-- When the target's master exists, replaying the manifest truncated after
the first occurrence of the target equals replaying the full manifest: the
break fires right there. -/
theorem replayCommits_take_indexOf (dir : BranchDir) (target : String)
    (hm : (lookupA dir.masters target).isSome = true) :
    ∀ (cs : List String) (st : List (String × List Char)), target ∈ cs →
    replayCommits dir target (cs.take (cs.indexOf target + 1)) st =
      replayCommits dir target cs st := by
  intro cs
  induction cs with
  | nil => intro st hmem; simp at hmem
  | cons c rest ih =>
    intro st hmem
    by_cases hc : c = target
    · subst hc
      rw [indexOf_cons_self_str]
      obtain ⟨master, hmaster⟩ := Option.isSome_iff_exists.mp hm
      simp [List.take_succ_cons, List.take_zero, replayCommits, hmaster]
    · have hmem' : target ∈ rest := by
        rcases List.mem_cons.mp hmem with he | hr
        · exact absurd he.symm hc
        · exact hr
      rw [indexOf_cons_ne_str c target rest hc, List.take_succ_cons]
      simp only [replayCommits]
      cases lookupA dir.masters c with
      | none => exact ih st hmem'
      | some master =>
        simp only [if_neg hc]
        exact ih _ hmem'

theorem mem_keys_setA {α : Type} (m : List (String × α)) (k : String) (v : α)
    (x : String) :
    x ∈ (setA m k v).map Prod.fst ↔ x ∈ m.map Prod.fst ∨ x = k := by
  induction m with
  | nil => simp [setA]
  | cons e rest ih =>
    obtain ⟨ek, ev⟩ := e
    by_cases hek : ek = k
    · subst hek
      simp [setA]
      tauto
    · simp only [setA, if_neg hek, List.map_cons, List.mem_cons, ih]
      tauto

theorem keysNodup_setA {α : Type} (m : List (String × α)) (k : String) (v : α)
    (h : keysNodup m) : keysNodup (setA m k v) := by
  induction m with
  | nil => simp [keysNodup, setA]
  | cons e rest ih =>
    obtain ⟨ek, ev⟩ := e
    unfold keysNodup at h
    rw [List.map_cons, List.nodup_cons] at h
    by_cases hek : ek = k
    · subst hek
      have hse : setA ((ek, ev) :: rest) ek v = (ek, v) :: rest := by
        simp [setA]
      rw [hse]
      unfold keysNodup
      simp only [List.map_cons, List.nodup_cons]
      exact h
    · unfold keysNodup
      simp only [setA, if_neg hek, List.map_cons, List.nodup_cons]
      constructor
      · intro hmem
        rcases (mem_keys_setA rest k v ek).mp hmem with hin | heq
        · exact h.1 hin
        · exact hek heq
      · exact ih h.2

theorem keysNodup_eraseA {α : Type} (m : List (String × α)) (k : String)
    (h : keysNodup m) : keysNodup (eraseA m k) :=
  List.Nodup.sublist (List.Sublist.map Prod.fst (List.filter_sublist m)) h

theorem keysNodup_applyChange (state : List (String × List Char))
    (filePath : String) (c : Change) (h : keysNodup state) :
    keysNodup (applyChange state filePath c) := by
  cases c with
  | createFile content => exact keysNodup_setA _ _ _ h
  | deleteFile => exact keysNodup_eraseA _ _ h
  | ops operations => exact keysNodup_setA _ _ _ h

theorem keysNodup_applyChanges (changes : List (String × Change)) :
    ∀ state, keysNodup state → keysNodup (applyChanges state changes) := by
  induction changes with
  | nil => intro state h; exact h
  | cons e rest ih =>
    intro state h
    exact ih _ (keysNodup_applyChange state e.1 e.2 h)

theorem keysNodup_foldl_setA {α : Type} (entries : List (String × α)) :
    ∀ m, keysNodup m →
    keysNodup (entries.foldl (fun a e => setA a e.1 e.2) m) := by
  induction entries with
  | nil => intro m h; exact h
  | cons e rest ih =>
    intro m h
    exact ih _ (keysNodup_setA m e.1 e.2 h)

theorem keysNodup_rootState (parts : List (List (String × List Char))) :
    keysNodup (rootState parts) := by
  unfold rootState
  have hgen : ∀ (ps : List (List (String × List Char)))
      (st : List (String × List Char)), keysNodup st →
      keysNodup (ps.foldl
        (fun st part => part.foldl (fun s f => setA s f.1 f.2) st) st) := by
    intro ps
    induction ps with
    | nil => intro st h; exact h
    | cons p rest ih =>
      intro st h
      exact ih _ (keysNodup_foldl_setA p st h)
  exact hgen parts [] (by simp [keysNodup])

theorem keysNodup_replayCommits (dir : BranchDir) (target : String) :
    ∀ (cs : List String) (st : List (String × List Char)), keysNodup st →
    keysNodup (replayCommits dir target cs st) := by
  intro cs
  induction cs with
  | nil => intro st h; exact h
  | cons c rest ih =>
    intro st h
    cases hm : lookupA dir.masters c with
    | none =>
      simp only [replayCommits, hm]
      exact ih st h
    | some master =>
      simp only [replayCommits, hm]
      by_cases hc : c = target
      · rw [if_pos hc]
        exact keysNodup_applyChanges _ _ h
      · rw [if_neg hc]
        exact ih _ (keysNodup_applyChanges _ _ h)

theorem keysNodup_getStateByHash (r : Repo) (b : String) (t : Option String) :
    keysNodup (getStateByHash r b t) := by
  unfold getStateByHash
  cases r.root with
  | none => simp [keysNodup]
  | some rootParts =>
    cases lookupA r.branches b with
    | none => simp [keysNodup]
    | some dir =>
      cases t with
      | none => exact keysNodup_rootState rootParts
      | some target =>
        exact keysNodup_replayCommits dir target dir.commits _
          (keysNodup_rootState rootParts)

theorem not_mem_keys_of_lookupA_none {α : Type} (m : List (String × α))
    (k : String) (h : lookupA m k = none) : k ∉ m.map Prod.fst := by
  induction m with
  | nil => simp
  | cons e rest ih =>
    obtain ⟨ek, ev⟩ := e
    simp only [lookupA] at h
    by_cases hek : ek = k
    · rw [if_pos hek] at h
      cases h
    · rw [if_neg hek] at h
      simp only [List.map_cons, List.mem_cons, not_or]
      exact ⟨fun he => hek he.symm, ih h⟩

theorem lookupA_foldl_setA_not_mem {α : Type} (entries : List (String × α)) :
    ∀ (m : List (String × α)) (pth : String), pth ∉ entries.map Prod.fst →
    lookupA (entries.foldl (fun a e => setA a e.1 e.2) m) pth = lookupA m pth := by
  induction entries with
  | nil => intro m pth _; rfl
  | cons e rest ih =>
    intro m pth hpth
    simp only [List.map_cons, List.mem_cons, not_or] at hpth
    simp only [List.foldl_cons]
    rw [ih _ pth (by simp [hpth.2]), lookupA_setA, if_neg (fun he => hpth.1 he.symm)]

theorem lookupA_foldl_setA_mem {α : Type} (entries : List (String × α)) :
    ∀ (m : List (String × α)) (pth : String) (v : α), keysNodup entries →
    lookupA entries pth = some v →
    lookupA (entries.foldl (fun a e => setA a e.1 e.2) m) pth = some v := by
  induction entries with
  | nil => intro m pth v _ h; cases h
  | cons e rest ih =>
    intro m pth v hnd hl
    obtain ⟨ek, ev⟩ := e
    unfold keysNodup at hnd
    rw [List.map_cons, List.nodup_cons] at hnd
    simp only [lookupA] at hl
    simp only [List.foldl_cons]
    by_cases hek : ek = pth
    · rw [if_pos hek] at hl
      cases hl
      subst hek
      rw [lookupA_foldl_setA_not_mem rest _ ek hnd.1, lookupA_setA, if_pos rfl]
    · rw [if_neg hek] at hl
      exact ih _ pth v hnd.2 hl

theorem lookupA_erasefold_not_mem (cs ts : List (String × List Char)) :
    ∀ (wt : List (String × List Char)) (pth : String), pth ∉ cs.map Prod.fst →
    lookupA (cs.foldl
      (fun wt e => if (lookupA ts e.1).getD [] = [] then eraseA wt e.1 else wt)
      wt) pth = lookupA wt pth := by
  induction cs with
  | nil => intro wt pth _; rfl
  | cons e rest ih =>
    intro wt pth hpth
    simp only [List.map_cons, List.mem_cons, not_or] at hpth
    simp only [List.foldl_cons]
    rw [ih _ pth (by simp [hpth.2])]
    by_cases hc : (lookupA ts e.1).getD [] = []
    · rw [if_pos hc, lookupA_eraseA, if_neg (fun he => hpth.1 he.symm)]
    · rw [if_neg hc]

/-- A clean working tree (the dirty test returning false) agrees pointwise
with the reconstructed state. -/
theorem isDirty_false_lookup (wt cs : List (String × List Char))
    (h : isDirty wt cs = false) :
    ∀ pth, lookupA wt pth = lookupA cs pth := by
  unfold isDirty at h
  rw [Bool.or_eq_false_iff] at h
  have h1 : ∀ e ∈ wt, lookupA cs e.1 = some e.2 := by
    intro e he
    by_contra hne
    have : wt.any (fun e => decide (¬ lookupA cs e.1 = some e.2)) = true :=
      List.any_eq_true.mpr ⟨e, he, by simp [hne]⟩
    rw [this] at h
    cases h.1
  have h2 : ∀ e ∈ cs, (lookupA wt e.1).isNone = false := by
    intro e he
    by_contra hne
    have hn : (lookupA wt e.1).isNone = true := by
      cases hx : (lookupA wt e.1).isNone with
      | true => rfl
      | false => exact absurd hx hne
    have : cs.any (fun e => (lookupA wt e.1).isNone) = true :=
      List.any_eq_true.mpr ⟨e, he, hn⟩
    rw [this] at h
    cases h.2
  intro pth
  cases hw : lookupA wt pth with
  | some v => exact (h1 (pth, v) (lookupA_some_mem _ _ _ hw)).symm
  | none =>
    cases hcs : lookupA cs pth with
    | none => rfl
    | some w =>
      have hmem := lookupA_some_mem _ _ _ hcs
      have := h2 (pth, w) hmem
      rw [hw] at this
      cases this

/-- Evaluation of a non-forced `checkout` of an existing branch: either the
dirty guard throws, or the working tree is rewritten (removal loop, then
write loop) and the head repointed. -/
theorem checkout_existing (r' : Repo) (bn : String) (d : BranchDir)
    (hb : lookupA r'.branches bn = some d) :
    checkout r' bn false =
      (if isDirty r'.worktree
          (getStateByHash r' r'.head.branch r'.head.parent) = true then
        (⟨r', Except.error
          "Your local changes would be overwritten by checkout. Please commit or stash them."⟩ :
          Outcome)
      else
        ⟨{ r' with
            worktree :=
              (getStateByHash r' bn d.commits.getLast?).foldl
                (fun wt e => setA wt e.1 e.2)
                ((getStateByHash r' r'.head.branch r'.head.parent).foldl
                  (fun wt e =>
                    if ((lookupA (getStateByHash r' bn d.commits.getLast?)
                        e.1).getD []) = [] then
                      eraseA wt e.1
                    else wt)
                  r'.worktree),
            head := ⟨bn, d.commits.getLast?⟩ },
          Except.ok ("Switched to branch \"" ++ bn ++ "\".")⟩) := by
  by_cases hdcase : isDirty r'.worktree
      (getStateByHash r' r'.head.branch r'.head.parent) = true
  · simp [checkout, hb, hdcase]
  · have hf : isDirty r'.worktree
        (getStateByHash r' r'.head.branch r'.head.parent) = false := by
      cases hx : isDirty r'.worktree
          (getStateByHash r' r'.head.branch r'.head.parent) with
      | true => exact absurd hx hdcase
      | false => rfl
    simp [checkout, hb, hf]

/-- C3 counterexample: `reset` to a commit present on the branch and in the
manifest updates the pointer and the manifest, but then runs a NON-forced
checkout: on a working tree that differs from the state at the reset target
it throws the local-changes error and never materializes the tree — the
claim's "forced checkout (one that skips the dirty-tree check)" is wrong.
Here `baseRepo`'s tree is at `c2` (`"Hello\n"`) and we reset to `c1`
(`"hello\n"`). -/
theorem reset_not_forced_counterexample_C3 :
    "c1" ∈ mainDir.commits ∧
    (lookupA mainDir.masters "c1").isSome = true ∧
    (reset baseRepo (some "c1")).result =
      Except.error
        "Your local changes would be overwritten by checkout. Please commit or stash them." ∧
    (reset baseRepo (some "c1")).repo.worktree ≠
      getStateByHash (reset baseRepo (some "c1")).repo "main" (some "c1") := by
  refine ⟨?_, ?_, ?_, ?_⟩ <;> decide

/-- C3 amended: for every `reset(h)` where the commit `h` exists on the
active branch and appears in its manifest, afterwards
`head.active.parent = h` and the last entry of the branch manifest is `h`;
the working tree is then materialized by a NON-forced checkout of the
active branch — one that performs the dirty-tree check against the state at
`h`: if the tree differs from that state the call fails with the
local-changes error and the tree is left untouched; if the tree matches it,
the call succeeds and the tree holds exactly the state at `h`. -/
theorem reset_behavior_C3 (r : Repo) (h : String) (dir : BranchDir)
    (hdir : lookupA r.branches r.head.branch = some dir)
    (hmaster : (lookupA dir.masters h).isSome = true)
    (hmem : h ∈ dir.commits) :
    (reset r (some h)).repo.head.parent = some h ∧
    (commitsOf (reset r (some h)).repo r.head.branch).getLast? = some h ∧
    (isDirty r.worktree (getStateByHash r r.head.branch (some h)) = true →
      (reset r (some h)).result =
        Except.error
          "Your local changes would be overwritten by checkout. Please commit or stash them." ∧
      (reset r (some h)).repo.worktree = r.worktree) ∧
    (isDirty r.worktree (getStateByHash r r.head.branch (some h)) = false →
      (reset r (some h)).result =
        Except.ok ("Branch is now at " ++ String.mk (h.data.take 7) ++
          ". Working directory updated.") ∧
      ∀ pth, lookupA (reset r (some h)).repo.worktree pth =
        lookupA (getStateByHash r r.head.branch (some h)) pth) := by
  have hisnone : (lookupA dir.masters h).isNone = false := by
    obtain ⟨m, hm⟩ := Option.isSome_iff_exists.mp hmaster
    rw [hm]
    rfl
  have hred : reset r (some h) =
      (match (checkout
          ({ r with
              head := ⟨r.head.branch, some h⟩,
              branches := setA r.branches r.head.branch
                ⟨dir.commits.take (dir.commits.indexOf h + 1), dir.masters,
                  dir.partFiles⟩,
              stage := none } : Repo) r.head.branch false).result with
       | Except.error e =>
         ⟨(checkout
             ({ r with
                 head := ⟨r.head.branch, some h⟩,
                 branches := setA r.branches r.head.branch
                   ⟨dir.commits.take (dir.commits.indexOf h + 1), dir.masters,
                     dir.partFiles⟩,
                 stage := none } : Repo) r.head.branch false).repo,
           Except.error e⟩
       | Except.ok _ =>
         ⟨(checkout
             ({ r with
                 head := ⟨r.head.branch, some h⟩,
                 branches := setA r.branches r.head.branch
                   ⟨dir.commits.take (dir.commits.indexOf h + 1), dir.masters,
                     dir.partFiles⟩,
                 stage := none } : Repo) r.head.branch false).repo,
           Except.ok ("Branch is now at " ++ String.mk (h.data.take 7) ++
             ". Working directory updated.")⟩) := by
    simp only [reset, hdir, hisnone, Bool.false_eq_true, if_false, hmem,
      if_true]
  rw [hred]
  set T : BranchDir :=
    ⟨dir.commits.take (dir.commits.indexOf h + 1), dir.masters, dir.partFiles⟩
    with hT
  set R3 : Repo :=
    { r with
        head := ⟨r.head.branch, some h⟩,
        branches := setA r.branches r.head.branch T,
        stage := none } with hR3
  have hb3 : lookupA R3.branches r.head.branch = some T := by
    rw [hR3]
    show lookupA (setA r.branches r.head.branch T) r.head.branch = some T
    rw [lookupA_setA, if_pos rfl]
  have hlast : T.commits.getLast? = some h := by
    rw [hT]
    exact getLast?_take_indexOf dir.commits h hmem
  have hst0 : getStateByHash R3 r.head.branch (some h) =
      getStateByHash r r.head.branch (some h) := by
    unfold getStateByHash
    have hroot : R3.root = r.root := by rw [hR3]
    rw [hroot, hb3, hdir]
    cases hr : r.root with
    | none => rfl
    | some rootParts =>
      show replayCommits T h T.commits (rootState rootParts) =
        replayCommits dir h dir.commits (rootState rootParts)
      rw [replayCommits_masters_congr T dir (by rw [hT]) (by rw [hT]) h
        T.commits (rootState rootParts)]
      rw [hT]
      exact replayCommits_take_indexOf dir h hmaster dir.commits
        (rootState rootParts) hmem
  have hsteq : getStateByHash R3 R3.head.branch R3.head.parent =
      getStateByHash r r.head.branch (some h) := by
    have hbr : R3.head.branch = r.head.branch := by rw [hR3]
    have hpar : R3.head.parent = some h := by rw [hR3]
    rw [hbr, hpar]
    exact hst0
  have hwt3 : R3.worktree = r.worktree := by rw [hR3]
  have hco := checkout_existing R3 r.head.branch T hb3
  by_cases hd : isDirty r.worktree (getStateByHash r r.head.branch (some h)) = true
  · have hdR : isDirty R3.worktree
        (getStateByHash R3 R3.head.branch R3.head.parent) = true := by
      rw [hsteq, hwt3]
      exact hd
    rw [hco, if_pos hdR]
    refine ⟨?_, ?_, ?_, ?_⟩
    · rw [hR3]
    · show (commitsOf R3 r.head.branch).getLast? = some h
      unfold commitsOf
      rw [hb3]
      exact hlast
    · intro _
      exact ⟨rfl, hwt3⟩
    · intro hclean
      rw [hd] at hclean
      cases hclean
  · have hdf : isDirty r.worktree
        (getStateByHash r r.head.branch (some h)) = false := by
      cases hx : isDirty r.worktree (getStateByHash r r.head.branch (some h)) with
      | true => exact absurd hx hd
      | false => rfl
    have hdR : isDirty R3.worktree
        (getStateByHash R3 R3.head.branch R3.head.parent) = false := by
      rw [hsteq, hwt3]
      exact hdf
    have hnot : ¬ isDirty R3.worktree
        (getStateByHash R3 R3.head.branch R3.head.parent) = true := by
      rw [hdR]
      simp
    rw [hco, if_neg hnot]
    refine ⟨?_, ?_, ?_, ?_⟩
    · show T.commits.getLast? = some h
      exact hlast
    · show (commitsOf R3 r.head.branch).getLast? = some h
      unfold commitsOf
      rw [hb3]
      exact hlast
    · intro hdirty
      rw [hdf] at hdirty
      cases hdirty
    · intro _
      refine ⟨rfl, ?_⟩
      intro pth
      show lookupA
        ((getStateByHash R3 r.head.branch T.commits.getLast?).foldl
          (fun wt e => setA wt e.1 e.2)
          ((getStateByHash R3 R3.head.branch R3.head.parent).foldl
            (fun wt e =>
              if ((lookupA (getStateByHash R3 r.head.branch T.commits.getLast?)
                  e.1).getD []) = [] then
                eraseA wt e.1
              else wt)
            R3.worktree)) pth =
        lookupA (getStateByHash r r.head.branch (some h)) pth
      rw [hlast, hst0, hwt3]
      cases hv : lookupA (getStateByHash r r.head.branch (some h)) pth with
      | some v =>
        rw [lookupA_foldl_setA_mem _ _ pth v
          (keysNodup_getStateByHash r r.head.branch (some h)) hv]
      | none =>
        rw [lookupA_foldl_setA_not_mem _ _ pth
            (not_mem_keys_of_lookupA_none _ _ hv),
          lookupA_erasefold_not_mem _ _ _ pth
            (not_mem_keys_of_lookupA_none _ _ hv)]
        rw [isDirty_false_lookup r.worktree _ hdf pth]
        exact hv

/-- Witness for C3 amended: a clean reset of `baseRepo` (tree put at the
`c1` state first) back to `c1`. -/
theorem reset_behavior_C3_witness :
    (reset { baseRepo with worktree := [("a.txt", "hello\n".data)] }
        (some "c1")).repo.head.parent = some "c1" ∧
    (commitsOf (reset { baseRepo with worktree := [("a.txt", "hello\n".data)] }
        (some "c1")).repo "main").getLast? = some "c1" ∧
    (reset { baseRepo with worktree := [("a.txt", "hello\n".data)] }
        (some "c1")).result =
      Except.ok "Branch is now at c1. Working directory updated." := by
  have hmain := reset_behavior_C3
    { baseRepo with worktree := [("a.txt", "hello\n".data)] } "c1" mainDir
    (by decide) (by decide) (by decide)
  exact ⟨hmain.1, hmain.2.1, (hmain.2.2.2 (by decide)).1⟩

/-! ### C4: the head-pointer invariant -/

/-- The invariant only reads the head and the branch map. -/
theorem headInvariant_congr (a b : Repo) (hh : a.head = b.head)
    (hb : a.branches = b.branches) : headInvariant a = headInvariant b := by
  unfold headInvariant commitsOf
  rw [hh, hb]

/-- C4 counterexample: on `orphanRepo` the invariant holds (`parent = c1 ∈
manifest`), the commit file `c2.json` exists on disk while `c2` is absent
from the manifest, and `reset("c2")` breaks the invariant: it repoints
`head.active.parent` to `c2`, skips the manifest truncation (`indexOf`
returned `-1`), and the subsequent non-forced checkout throws on the dirty
tree, leaving `parent = c2` dangling. -/
theorem reset_invariant_counterexample_C4 :
    headInvariant orphanRepo = true ∧
    (lookupA orphanDir.masters "c2").isSome = true ∧
    "c2" ∉ orphanDir.commits ∧
    headInvariant (reset orphanRepo (some "c2")).repo = false := by
  refine ⟨?_, ?_, ?_, ?_⟩ <;> decide

theorem headInvariant_commit (r : Repo) (message : String) (timestamp : Nat)
    (commitHash : String) (hinv : headInvariant r = true) :
    headInvariant (commit r message timestamp commitHash).repo = true := by
  by_cases hmsg : message = ""
  · simp only [commit, if_pos hmsg]
    exact hinv
  · cases hst : r.stage with
    | none =>
      simp only [commit, if_neg hmsg, hst]
      exact hinv
    | some staged =>
      cases hbr : lookupA r.branches r.head.branch with
      | none =>
        simp only [commit, if_neg hmsg, hst, hbr]
        exact hinv
      | some dir =>
        simp only [commit, if_neg hmsg, hst, hbr]
        simp [headInvariant, commitsOf, lookupA_setA]

theorem headInvariant_merge (r : Repo) (targetBranch : String)
    (hinv : headInvariant r = true) :
    headInvariant (merge r targetBranch).repo = true := by
  cases h1 : lookupA r.branches r.head.branch with
  | none =>
    simp only [merge, h1]
    exact (headInvariant_congr _ r rfl rfl).trans hinv
  | some adir =>
    cases h2 : lookupA r.branches targetBranch with
    | none =>
      simp only [merge, h1, h2]
      exact (headInvariant_congr _ r rfl rfl).trans hinv
    | some tdir =>
      simp only [merge, h1, h2]
      exact (headInvariant_congr _ r rfl rfl).trans hinv

theorem headInvariant_checkout (r : Repo) (bn : String) (force : Bool)
    (hinv : headInvariant r = true) :
    headInvariant (checkout r bn force).repo = true := by
  by_cases hex : (lookupA r.branches bn).isSome = true
  · obtain ⟨d, hd⟩ := Option.isSome_iff_exists.mp hex
    simp only [checkout, hex, if_true]
    by_cases hcond : (!force && isDirty r.worktree
        (getStateByHash r r.head.branch r.head.parent)) = true
    · simp only [hcond, if_true]
      exact hinv
    · have hcf : (!force && isDirty r.worktree
          (getStateByHash r r.head.branch r.head.parent)) = false := by
        cases hx : (!force && isDirty r.worktree
            (getStateByHash r r.head.branch r.head.parent)) with
        | true => exact absurd hx hcond
        | false => rfl
      simp only [hcf, Bool.false_eq_true, if_false, hd]
      cases hg : d.commits.getLast? with
      | none => simp [headInvariant, hg]
      | some hh =>
        simp [headInvariant, commitsOf, hd, hg]
        exact List.mem_of_getLast?_eq_some hg
  · have hnone : lookupA r.branches bn = none := by
      cases hl : lookupA r.branches bn with
      | none => rfl
      | some d => rw [hl] at hex; simp at hex
    by_cases hempty : bn = ""
    · subst hempty
      have hbc : branchCreate r "" = ⟨r, Except.ok ""⟩ := by
        simp [branchCreate]
      by_cases hcond : (!force && isDirty r.worktree
          (getStateByHash r r.head.branch r.head.parent)) = true
      · simp only [checkout, hnone, Option.isSome_none, Bool.false_eq_true,
          if_false, hbc, hcond, if_true]
        exact hinv
      · have hcf : (!force && isDirty r.worktree
            (getStateByHash r r.head.branch r.head.parent)) = false := by
          cases hx : (!force && isDirty r.worktree
              (getStateByHash r r.head.branch r.head.parent)) with
          | true => exact absurd hx hcond
          | false => rfl
        simp only [checkout, hnone, Option.isSome_none, Bool.false_eq_true,
          if_false, hbc, hcf]
        exact hinv
    · by_cases hinvalid : invalidBranchName bn = true
      · have hbc : branchCreate r bn =
            ⟨r, Except.error ("Invalid branch name: \"" ++ bn ++
              "\". Branch names cannot contain slashes or illegal characters.")⟩ := by
          simp only [branchCreate, if_neg hempty, hinvalid, if_true]
        simp only [checkout, hnone, Option.isSome_none, Bool.false_eq_true,
          if_false, hbc]
        exact hinv
      · have hvalid : invalidBranchName bn = false := by
          cases hx : invalidBranchName bn with
          | true => exact absurd hx hinvalid
          | false => rfl
        have hbc := branchCreate_fresh r bn hempty hvalid hnone
        have hhd : (branchCreate r bn).repo.head = r.head := by rw [hbc]
        have hcom : commitsOf (branchCreate r bn).repo r.head.branch =
            commitsOf r r.head.branch := by
          by_cases hbact : bn = r.head.branch
          · have hlook : lookupA (branchCreate r bn).repo.branches r.head.branch =
                some ⟨commitsOf r r.head.branch,
                  (copyCommitData (lookupA r.branches r.head.branch)
                    (lookupA r.remoteBranches r.head.branch)
                    (commitsOf r r.head.branch)).1,
                  (copyCommitData (lookupA r.branches r.head.branch)
                    (lookupA r.remoteBranches r.head.branch)
                    (commitsOf r r.head.branch)).2⟩ := by
              rw [hbc]
              show lookupA (setA r.branches bn _) r.head.branch = _
              rw [lookupA_setA, if_pos hbact]
            conv_lhs => unfold commitsOf
            rw [hlook]
          · have hlook : lookupA (branchCreate r bn).repo.branches r.head.branch =
                lookupA r.branches r.head.branch := by
              rw [hbc]
              show lookupA (setA r.branches bn _) r.head.branch = _
              rw [lookupA_setA, if_neg hbact]
            unfold commitsOf
            rw [hlook]
        have hinvC : headInvariant (branchCreate r bn).repo = true := by
          unfold headInvariant at hinv ⊢
          rw [hhd]
          cases hp : r.head.parent with
          | none => rfl
          | some p =>
            rw [hp] at hinv
            rw [hcom]
            exact hinv
        have hlookself : lookupA (branchCreate r bn).repo.branches bn =
            some ⟨commitsOf r r.head.branch,
              (copyCommitData (lookupA r.branches r.head.branch)
                (lookupA r.remoteBranches r.head.branch)
                (commitsOf r r.head.branch)).1,
              (copyCommitData (lookupA r.branches r.head.branch)
                (lookupA r.remoteBranches r.head.branch)
                (commitsOf r r.head.branch)).2⟩ := by
          rw [hbc]
          show lookupA (setA r.branches bn _) bn = _
          rw [lookupA_setA, if_pos rfl]
        have hres : (branchCreate r bn).result =
            Except.ok ("Created branch \"" ++ bn ++ "\".") := by rw [hbc]
        by_cases hcond : (!force && isDirty (branchCreate r bn).repo.worktree
            (getStateByHash (branchCreate r bn).repo
              (branchCreate r bn).repo.head.branch
              (branchCreate r bn).repo.head.parent)) = true
        · simp only [checkout, hnone, Option.isSome_none, Bool.false_eq_true,
            if_false, hres, hcond, if_true]
          exact hinvC
        · have hcf : (!force && isDirty (branchCreate r bn).repo.worktree
              (getStateByHash (branchCreate r bn).repo
                (branchCreate r bn).repo.head.branch
                (branchCreate r bn).repo.head.parent)) = false := by
            cases hx : (!force && isDirty (branchCreate r bn).repo.worktree
                (getStateByHash (branchCreate r bn).repo
                  (branchCreate r bn).repo.head.branch
                  (branchCreate r bn).repo.head.parent)) with
            | true => exact absurd hx hcond
            | false => rfl
          simp only [checkout, hnone, Option.isSome_none, Bool.false_eq_true,
            if_false, hres, hcf, hlookself]
          cases hg : (commitsOf r r.head.branch).getLast? with
          | none => simp [headInvariant, hg]
          | some hh =>
            simp [headInvariant, commitsOf, hlookself, hg]
            exact List.mem_of_getLast?_eq_some hg

theorem headInvariant_reset_none (r : Repo) (hinv : headInvariant r = true) :
    headInvariant (reset r none).repo = true := by
  simp only [reset]
  exact (headInvariant_congr _ r rfl rfl).trans hinv

theorem headInvariant_reset_mem (r : Repo) (h : String)
    (hinv : headInvariant r = true) (hmem0 : h ∈ commitsOf r r.head.branch) :
    headInvariant (reset r (some h)).repo = true := by
  unfold commitsOf at hmem0
  cases hbr : lookupA r.branches r.head.branch with
  | none =>
    rw [hbr] at hmem0
    simp at hmem0
  | some dir =>
    rw [hbr] at hmem0
    by_cases hmn : (lookupA dir.masters h).isNone = true
    · simp only [reset, hbr, hmn, if_true]
      exact (headInvariant_congr _ r rfl rfl).trans hinv
    · have hmf : (lookupA dir.masters h).isNone = false := by
        cases hx : (lookupA dir.masters h).isNone with
        | true => exact absurd hx hmn
        | false => rfl
      have hred : reset r (some h) =
          (match (checkout
              ({ r with
                  head := ⟨r.head.branch, some h⟩,
                  branches := setA r.branches r.head.branch
                    ⟨dir.commits.take (dir.commits.indexOf h + 1), dir.masters,
                      dir.partFiles⟩,
                  stage := none } : Repo) r.head.branch false).result with
           | Except.error e =>
             ⟨(checkout
                 ({ r with
                     head := ⟨r.head.branch, some h⟩,
                     branches := setA r.branches r.head.branch
                       ⟨dir.commits.take (dir.commits.indexOf h + 1),
                         dir.masters, dir.partFiles⟩,
                     stage := none } : Repo) r.head.branch false).repo,
               Except.error e⟩
           | Except.ok _ =>
             ⟨(checkout
                 ({ r with
                     head := ⟨r.head.branch, some h⟩,
                     branches := setA r.branches r.head.branch
                       ⟨dir.commits.take (dir.commits.indexOf h + 1),
                         dir.masters, dir.partFiles⟩,
                     stage := none } : Repo) r.head.branch false).repo,
               Except.ok ("Branch is now at " ++ String.mk (h.data.take 7) ++
                 ". Working directory updated.")⟩) := by
        simp only [reset, hbr, hmf, Bool.false_eq_true, if_false, hmem0,
          if_true]
      rw [hred]
      set T : BranchDir :=
        ⟨dir.commits.take (dir.commits.indexOf h + 1), dir.masters,
          dir.partFiles⟩ with hT
      set R3 : Repo :=
        { r with
            head := ⟨r.head.branch, some h⟩,
            branches := setA r.branches r.head.branch T,
            stage := none } with hR3
      have hb3 : lookupA R3.branches r.head.branch = some T := by
        rw [hR3]
        show lookupA (setA r.branches r.head.branch T) r.head.branch = some T
        rw [lookupA_setA, if_pos rfl]
      have hlast : T.commits.getLast? = some h := by
        rw [hT]
        exact getLast?_take_indexOf dir.commits h hmem0
      have hmemT : h ∈ T.commits := by
        rw [hT]
        exact mem_take_indexOf dir.commits h hmem0
      rw [checkout_existing R3 r.head.branch T hb3]
      by_cases hdx : isDirty R3.worktree
          (getStateByHash R3 R3.head.branch R3.head.parent) = true
      · rw [if_pos hdx]
        show headInvariant R3 = true
        unfold headInvariant
        show decide (h ∈ commitsOf R3 R3.head.branch) = true
        rw [decide_eq_true_eq]
        show h ∈ commitsOf R3 r.head.branch
        unfold commitsOf
        rw [hb3]
        exact hmemT
      · rw [if_neg hdx]
        unfold headInvariant
        show (match T.commits.getLast? with
          | none => true
          | some hh => decide (hh ∈ commitsOf
              ({ R3 with
                  worktree :=
                    (getStateByHash R3 r.head.branch T.commits.getLast?).foldl
                      (fun wt e => setA wt e.1 e.2)
                      ((getStateByHash R3 R3.head.branch R3.head.parent).foldl
                        (fun wt e =>
                          if ((lookupA (getStateByHash R3 r.head.branch
                              T.commits.getLast?) e.1).getD []) = [] then
                            eraseA wt e.1
                          else wt)
                        R3.worktree),
                  head := ⟨r.head.branch, T.commits.getLast?⟩ } : Repo)
              r.head.branch)) = true
        rw [hlast]
        rw [decide_eq_true_eq]
        unfold commitsOf
        rw [show lookupA (setA r.branches r.head.branch T) r.head.branch =
          some T from by rw [lookupA_setA, if_pos rfl]]
        exact hmemT

/-- C4 amended: the invariant "`head.active.parent` is null or present in
the active branch manifest" is preserved by `commit`, `checkout` (any
force flag), `merge`, `reset` with no hash, and `reset` to a hash present
in the branch manifest.  It is NOT preserved in general by `reset` to a
hash whose commit file exists on disk but which is absent from the branch
manifest: there the pointer is repointed, the truncation is skipped, and a
dirty-tree failure of the final non-forced checkout leaves the pointer
dangling. -/
theorem headInvariant_preserved_C4 (r : Repo) (hinv : headInvariant r = true) :
    (∀ message timestamp commitHash,
      headInvariant (commit r message timestamp commitHash).repo = true) ∧
    (∀ branchName force,
      headInvariant (checkout r branchName force).repo = true) ∧
    (∀ targetBranch, headInvariant (merge r targetBranch).repo = true) ∧
    headInvariant (reset r none).repo = true ∧
    (∀ h, h ∈ commitsOf r r.head.branch →
      headInvariant (reset r (some h)).repo = true) :=
  ⟨fun m t c => headInvariant_commit r m t c hinv,
   fun bn f => headInvariant_checkout r bn f hinv,
   fun t => headInvariant_merge r t hinv,
   headInvariant_reset_none r hinv,
   fun h hm => headInvariant_reset_mem r h hinv hm⟩

/-- Witness for C4 amended at `baseRepo`. -/
theorem headInvariant_preserved_C4_witness :
    headInvariant (commit baseRepo "m" 0 "h3").repo = true ∧
    headInvariant (checkout baseRepo "main" false).repo = true ∧
    headInvariant (reset baseRepo (some "c1")).repo = true :=
  ⟨(headInvariant_preserved_C4 baseRepo (by decide)).1 "m" 0 "h3",
   (headInvariant_preserved_C4 baseRepo (by decide)).2.1 "main" false,
   (headInvariant_preserved_C4 baseRepo (by decide)).2.2.2.2 "c1" (by decide)⟩

end Artifact
